import Mathlib

/-!
Verification of the chunked-generation merge engine in BACKEND/llamada_gpt.py.

Python strings are modeled as Lean String values; the helper routines of the
source are translated to Lean functions operating on the underlying character
lists.  Whitespace is modeled by Char.isWhitespace (space, tab, CR, LF), which
covers the characters relevant to this code base; digits are ASCII digits.
-/

namespace GAI

/-- Model of the Python str.strip method on character lists: remove leading and
trailing whitespace. -/
def pyStripL (cs : List Char) : List Char :=
  ((cs.dropWhile Char.isWhitespace).reverse.dropWhile Char.isWhitespace).reverse

/-- Model of the Python str.strip method. -/
def pyStrip (s : String) : String :=
  String.mk (pyStripL s.data)

/-- Model of the Python str.split(sep) method for a one-character separator
(auxiliary loop, acc holds the current piece reversed). -/
def splitOnCharAux (sep : Char) : List Char → List Char → List (List Char)
  | [], acc => [acc.reverse]
  | c :: rest, acc =>
    if c = sep then acc.reverse :: splitOnCharAux sep rest []
    else splitOnCharAux sep rest (c :: acc)

/-- Model of the Python str.split(sep) method for a one-character separator. -/
def splitOnChar (sep : Char) (cs : List Char) : List (List Char) :=
  splitOnCharAux sep cs []

/-- Validity of a digit run accepted by the Python int constructor, after the
first digit: digits, with single underscores allowed between digits. -/
def digitsValidAux : List Char → Bool
  | [] => true
  | c :: rest =>
    if c.isDigit then digitsValidAux rest
    else if c = Char.ofNat 95 then
      match rest with
      | d :: rest2 => d.isDigit && digitsValidAux rest2
      | [] => false
    else false

/-- Validity of a digit run accepted by the Python int constructor: nonempty,
starts with a digit, underscores only between digits. -/
def digitsValid : List Char → Bool
  | [] => false
  | c :: rest => c.isDigit && digitsValidAux rest

/-- Numeric value of a digit run, skipping underscores. -/
def natOfDigits (cs : List Char) : Nat :=
  cs.foldl (fun n c => if c.isDigit then n * 10 + (c.toNat - 48) else n) 0

/-- Model of the Python int constructor on strings (ASCII digits): strips
whitespace, accepts an optional sign, then a digit run; none models a raised
ValueError. -/
def pyInt (s : String) : Option Int :=
  match pyStripL s.data with
  | [] => none
  | c :: rest =>
    if c = '-' then
      if digitsValid rest then some (-(natOfDigits rest : Int)) else none
    else if c = '+' then
      if digitsValid rest then some ((natOfDigits rest : Int)) else none
    else
      if digitsValid (c :: rest) then some ((natOfDigits (c :: rest) : Int)) else none

/-- The try block of time_to_sec (src llamada_gpt.py lines 142-148): split on
the colon, require exactly two parts, parse both as Python ints. -/
def timeSplitParse (t : String) : Option Int :=
  match splitOnChar ':' t.data with
  | [m, s] =>
    match pyInt (String.mk m), pyInt (String.mk s) with
    | some mi, some si => some (mi * 60 + si)
    | _, _ => none
  | _ => none

/-- time_to_sec (src llamada_gpt.py lines 142-148): convert MM:SS to total
seconds, returning 0 on any parse failure. -/
def time_to_sec (t : String) : Int :=
  (timeSplitParse t).getD 0

/-- Two-digit-minutes attempt of the regex in _time_to_seconds. -/
def twoDigitAttempt (d1 : Char) (rest : List Char) : Option (Nat × Nat) :=
  match rest with
  | d2 :: c :: s1 :: s2 :: tail =>
    if d2.isDigit && (c = ':') && s1.isDigit && s2.isDigit
        && tail.all Char.isWhitespace then
      some ((d1.toNat - 48) * 10 + (d2.toNat - 48),
            (s1.toNat - 48) * 10 + (s2.toNat - 48))
    else none
  | _ => none

/-- One-digit-minutes attempt of the regex in _time_to_seconds. -/
def oneDigitAttempt (d1 : Char) (rest : List Char) : Option (Nat × Nat) :=
  match rest with
  | c :: s1 :: s2 :: tail =>
    if (c = ':') && s1.isDigit && s2.isDigit && tail.all Char.isWhitespace then
      some (d1.toNat - 48, (s1.toNat - 48) * 10 + (s2.toNat - 48))
    else none
  | _ => none

/-- Model of re.match applied to the anchored pattern with optional surrounding
whitespace, one or two minute digits, a colon and exactly two second digits
(src llamada_gpt.py line 329), including the greedy backtracking from the
two-digit to the one-digit minutes reading. -/
def matchMMSS (cs : List Char) : Option (Nat × Nat) :=
  match cs.dropWhile Char.isWhitespace with
  | [] => none
  | d1 :: rest =>
    if d1.isDigit then
      (twoDigitAttempt d1 rest).orElse (fun _ => oneDigitAttempt d1 rest)
    else none

/-- _time_to_seconds (src llamada_gpt.py lines 325-335): convert an optional
MM:SS string to seconds, returning 10 to the 9th power on a missing value or a
failed regex match. -/
def _time_to_seconds (value : Option String) : Int :=
  match value with
  | none => 10 ^ 9
  | some v =>
    if v = "" then 10 ^ 9
    else
      match matchMMSS v.data with
      | some (m, s) => (m : Int) * 60 + (s : Int)
      | none => 10 ^ 9

/-- A string of exactly the wire format of spec section 6: two digit characters,
a colon, two digit characters. -/
def wellFormedMMSS (t : String) : Bool :=
  match t.data with
  | [d1, d2, c, s1, s2] =>
    d1.isDigit && d2.isDigit && (c = ':') && s1.isDigit && s2.isDigit
  | _ => false

/-- The value denoted by a well-formed MM:SS string. -/
def mmssVal (t : String) : Nat :=
  match t.data with
  | [d1, d2, _, s1, s2] =>
    ((d1.toNat - 48) * 10 + (d2.toNat - 48)) * 60
      + ((s1.toNat - 48) * 10 + (s2.toNat - 48))
  | _ => 0

section CharFacts

lemma ws_cases {c : Char} (h : c.isWhitespace = true) :
    c = ' ' ∨ c = '\t' ∨ c = '\r' ∨ c = '\n' := by
  simpa [Char.isWhitespace, or_assoc] using h

lemma isDigit_not_ws {c : Char} (h : c.isDigit = true) : c.isWhitespace = false := by
  cases hw : c.isWhitespace with
  | false => rfl
  | true =>
    exfalso
    rcases ws_cases hw with rfl | rfl | rfl | rfl <;> exact absurd h (by decide)

lemma isDigit_ne_colon {c : Char} (h : c.isDigit = true) : c ≠ ':' := by
  rintro rfl; exact absurd h (by decide)

lemma isDigit_ne_minus {c : Char} (h : c.isDigit = true) : c ≠ '-' := by
  rintro rfl; exact absurd h (by decide)

lemma isDigit_ne_plus {c : Char} (h : c.isDigit = true) : c ≠ '+' := by
  rintro rfl; exact absurd h (by decide)

lemma dropWhile_ws_of_head_digit {c : Char} {cs : List Char} (h : c.isDigit = true) :
    (c :: cs).dropWhile Char.isWhitespace = c :: cs := by
  simp [List.dropWhile_cons, isDigit_not_ws h]

lemma pyStripL_digits {cs : List Char} (h : ∀ c ∈ cs, c.isDigit = true) :
    pyStripL cs = cs := by
  unfold pyStripL
  have h1 : cs.dropWhile Char.isWhitespace = cs := by
    cases cs with
    | nil => rfl
    | cons c rest => exact dropWhile_ws_of_head_digit (h c (by simp))
  rw [h1]
  have h2 : cs.reverse.dropWhile Char.isWhitespace = cs.reverse := by
    cases hr : cs.reverse with
    | nil => rfl
    | cons c rest =>
      have hc : c ∈ cs := by
        have : c ∈ cs.reverse := by rw [hr]; simp
        simpa using this
      exact dropWhile_ws_of_head_digit (h c hc)
  rw [h2, List.reverse_reverse]

end CharFacts

section C7Proofs

lemma pyInt_two_digits {d1 d2 : Char} (h1 : d1.isDigit = true) (h2 : d2.isDigit = true) :
    pyInt (String.mk [d1, d2]) = some ((((d1.toNat - 48) * 10 + (d2.toNat - 48) : Nat)) : Int) := by
  have hmem : ∀ c ∈ [d1, d2], c.isDigit = true := by
    intro c hc
    simp only [List.mem_cons, List.not_mem_nil, or_false] at hc
    rcases hc with rfl | rfl <;> assumption
  have hv : digitsValid [d1, d2] = true := by
    simp [digitsValid, digitsValidAux, h1, h2]
  have hval : natOfDigits [d1, d2] = (d1.toNat - 48) * 10 + (d2.toNat - 48) := by
    simp [natOfDigits, h1, h2]
  unfold pyInt
  rw [show (String.mk [d1, d2]).data = [d1, d2] from rfl]
  rw [pyStripL_digits hmem]
  simp only [if_neg (isDigit_ne_minus h1), if_neg (isDigit_ne_plus h1), hv, if_pos, hval]

lemma splitOnChar_colon_mmss {d1 d2 s1 s2 : Char}
    (h1 : d1.isDigit = true) (h2 : d2.isDigit = true)
    (h3 : s1.isDigit = true) (h4 : s2.isDigit = true) :
    splitOnChar ':' [d1, d2, ':', s1, s2] = [[d1, d2], [s1, s2]] := by
  simp [splitOnChar, splitOnCharAux, isDigit_ne_colon h1, isDigit_ne_colon h2,
    isDigit_ne_colon h3, isDigit_ne_colon h4]

/-- Claim C7: the two timestamp-parsing helpers use different failure
sentinels.  On a well-formed MM:SS string both return minutes times 60 plus
seconds; time_to_sec returns 0 when its split-and-int parse fails, while
_time_to_seconds returns 10 to the 9th power on a missing value or a failed
regex match. -/
theorem claim_C7 :
    (∀ t : String, wellFormedMMSS t = true →
      time_to_sec t = (mmssVal t : Int) ∧ _time_to_seconds (some t) = (mmssVal t : Int))
    ∧ (∀ t : String, timeSplitParse t = none → time_to_sec t = 0)
    ∧ (∀ v : String, matchMMSS v.data = none → _time_to_seconds (some v) = 10 ^ 9)
    ∧ _time_to_seconds none = 10 ^ 9 := by
  refine ⟨?_, ?_, ?_, rfl⟩
  · intro t ht
    rcases hd : t.data with
        _ | ⟨d1, _ | ⟨d2, _ | ⟨c, _ | ⟨s1, _ | ⟨s2, _ | ⟨c6, r⟩⟩⟩⟩⟩⟩ <;>
        unfold wellFormedMMSS at ht <;> rw [hd] at ht <;>
      first
        | exact Bool.noConfusion ht
        | skip
    simp only [Bool.and_eq_true, decide_eq_true_eq] at ht
    obtain ⟨⟨⟨⟨h1, h2⟩, hc⟩, h3⟩, h4⟩ := ht
    subst hc
    have hne : t ≠ "" := by
      intro h; rw [h] at hd; simp at hd
    constructor
    · simp only [time_to_sec, timeSplitParse, hd,
        splitOnChar_colon_mmss h1 h2 h3 h4, pyInt_two_digits h1 h2,
        pyInt_two_digits h3 h4, Option.getD_some, mmssVal]
      push_cast
      ring
    · simp only [_time_to_seconds, if_neg hne, hd,
        matchMMSS, dropWhile_ws_of_head_digit h1, h1, if_true, twoDigitAttempt,
        h2, h3, h4, List.all_nil, Bool.and_self, Bool.and_true, Bool.true_and,
        decide_True, if_pos, Option.orElse, mmssVal]
      push_cast
      ring
  · intro t h
    unfold time_to_sec
    rw [h]
    rfl
  · intro v h
    by_cases hv : v = "" <;> simp [_time_to_seconds, h, hv]

/-- Witness for claim C7 at concrete inputs. -/
theorem claim_C7_witness :
    wellFormedMMSS "05:07" = true
    ∧ time_to_sec "05:07" = 307 ∧ _time_to_seconds (some "05:07") = 307
    ∧ time_to_sec "garbage" = 0
    ∧ _time_to_seconds (some "garbage") = 10 ^ 9
    ∧ _time_to_seconds none = 10 ^ 9 := by
  have h1 := (claim_C7.1 "05:07" (by decide)).1
  have h2 := (claim_C7.1 "05:07" (by decide)).2
  have h3 := claim_C7.2.1 "garbage" (by decide)
  have h4 := claim_C7.2.2.1 "garbage" (by decide)
  have h5 := claim_C7.2.2.2
  refine ⟨by decide, ?_, ?_, h3, h4, h5⟩
  · rw [h1]; decide
  · rw [h2]; decide

end C7Proofs

/-- Collapse whitespace runs, auxiliary loop; the flag records whether the
previous character belonged to a whitespace run already replaced. -/
def collapseWsAux : Bool → List Char → List Char
  | _, [] => []
  | prevWs, c :: rest =>
    if c.isWhitespace then
      if prevWs then collapseWsAux true rest
      else ' ' :: collapseWsAux true rest
    else c :: collapseWsAux false rest

/-- Collapse every maximal run of whitespace into a single space, the effect of
re.sub applied to one-or-more whitespace on the already lowered string. -/
def collapseWs (cs : List Char) : List Char :=
  collapseWsAux false cs

/-- The punctuation characters removed by _normalize_text (the regex character
class on src llamada_gpt.py line 320): period, comma, semicolon, colon,
exclamation marks, question marks, hyphen, parentheses, brackets, braces,
double quote, apostrophe, backtick. -/
def punctChars : List Char :=
  ['.', ',', ';', ':', '!', '¡', '¿', '?', '-', '(', ')', '[', ']',
   Char.ofNat 123, Char.ofNat 125, Char.ofNat 34, Char.ofNat 39, Char.ofNat 96]

/-- _normalize_text (src llamada_gpt.py lines 315-323): lowercase, collapse
whitespace runs to one space, strip, then delete the punctuation characters.
The except branch of the source is unreachable for string input and is not
modeled. -/
def _normalize_text (s : String) : String :=
  String.mk (((pyStripL (collapseWs (s.data.map Char.toLower))).filter
    (fun c => !(punctChars.contains c))))

/-- _strip_bullet_prefix (src llamada_gpt.py lines 337-341): left-strip, drop
one leading hyphen or asterisk, strip. -/
def stripBulletPref (s : String) : String :=
  let t := s.data.dropWhile Char.isWhitespace
  let t := match t with
    | c :: rest => if c = '-' ∨ c = '*' then rest else c :: rest
    | [] => []
  String.mk (pyStripL t)

/-- Model of the Python str.splitlines method on character lists, with the
newline character as the only line break (the source content uses only
newlines): split on newlines, except that a trailing newline does not open a
final empty line. -/
def pySplitlinesL (cs : List Char) : List (List Char) :=
  if cs = [] then []
  else if cs.getLast? = some '\n' then (splitOnChar '\n' cs).dropLast
  else splitOnChar '\n' cs

/-- Model of the Python str.splitlines method. -/
def pySplitlines (s : String) : List String :=
  (pySplitlinesL s.data).map String.mk

/-- The normalized form under which bullet lines are compared. -/
def normLine (ln : String) : String :=
  _normalize_text (stripBulletPref ln)

/-- The non-blank lines of a content string. -/
def nonBlankLines (s : String) : List String :=
  (pySplitlines s).filter (fun ln => pyStrip ln ≠ "")

/-- The loop body of _merge_content: skip blank lines, skip lines whose
normalized form was already seen, append anything else.  The Python set of
seen normalized forms is modeled as a list queried by membership. -/
def mergeStep (acc : List String × List String) (ln : String) :
    List String × List String :=
  if pyStrip ln = "" then acc
  else if normLine ln ∈ acc.2 then acc
  else (acc.1 ++ [ln], normLine ln :: acc.2)

/-- The merged line list built by _merge_content before joining. -/
def mergedLines (base new : String) : List String :=
  ((pySplitlines new).foldl mergeStep
    (nonBlankLines base, (nonBlankLines base).map normLine)).1

/-- _merge_content (src llamada_gpt.py lines 343-358): keep the non-blank
lines of base in order, append each non-blank line of new whose normalized
form is not yet present; if the merged list is empty fall back to the
non-blank lines of new. -/
def _merge_content (base new : String) : String :=
  if mergedLines base new ≠ [] then String.intercalate "\n" (mergedLines base new)
  else String.intercalate "\n" (nonBlankLines new)

section C6Proofs

lemma foldl_mergeStep_const {L : List String} {acc : List String × List String}
    (h : ∀ ln ∈ L, pyStrip ln ≠ "" → normLine ln ∈ acc.2) :
    L.foldl mergeStep acc = acc := by
  induction L with
  | nil => rfl
  | cons ln rest ih =>
    have hstep : mergeStep acc ln = acc := by
      unfold mergeStep
      by_cases hb : pyStrip ln = ""
      · simp [hb]
      · simp [hb, h ln (by simp) hb]
    rw [List.foldl_cons, hstep]
    exact ih (fun l hl hb => h l (by simp [hl]) hb)

/-- Claim C6, as stated, is false: merging a content string with itself drops
blank lines, so the result can differ from the input. -/
theorem claim_C6_counterexample :
    _merge_content "- a\n\n- b" "- a\n\n- b" = "- a\n- b"
    ∧ _merge_content "- a\n\n- b" "- a\n\n- b" ≠ "- a\n\n- b" := by
  constructor <;> decide

/-- Claim C6 (amended): merging a detail content with itself produces the
content with blank lines removed and lines rejoined by single newlines, with
no duplicate lines introduced; in particular contents without blank lines and
without a trailing newline are returned unchanged. -/
theorem claim_C6 (c : String) :
    _merge_content c c = String.intercalate "\n" (nonBlankLines c) := by
  have hfold : mergedLines c c = nonBlankLines c := by
    unfold mergedLines
    rw [foldl_mergeStep_const]
    intro ln hln hb
    exact List.mem_map.mpr ⟨ln, List.mem_filter.mpr ⟨hln, by simpa using hb⟩, rfl⟩
  unfold _merge_content
  rw [hfold]
  by_cases hB : nonBlankLines c = [] <;> simp [hB]

end C6Proofs

/-- An entry of a tasks_and_objectives list; none models a non-dict entry. -/
structure RawTaskItem where
  task : String
  description : String
deriving DecidableEq

/-- The task synthesized from a description when the task is blank: the first
80 characters of the description, with a trailing ellipsis character when the
description is longer than 80 characters. -/
def synthTask (d : String) : String :=
  String.mk (d.data.take 80) ++ (if d.length > 80 then "…" else "")

/-- The tasks_and_objectives repair of repair_json_structure (src
llamada_gpt.py lines 230-243): non-dict entries are dropped, task and
description are stripped, a blank task with a non-blank description is
synthesized from the description, and entries whose task is still blank are
dropped. -/
def repair_tasks (tao : List (Option RawTaskItem)) : List RawTaskItem :=
  let fixed := tao.filterMap (fun it? =>
    match it? with
    | none => none
    | some it =>
      let raw_desc := pyStrip it.description
      let raw_task0 := pyStrip it.task
      let raw_task :=
        if raw_task0 = "" ∧ raw_desc ≠ "" then synthTask raw_desc
        else raw_task0
      some { task := raw_task, description := raw_desc })
  fixed.filter (fun it => it.task ≠ "")

section C9Proofs

lemma synthTask_ne_empty {d : String} (h : d ≠ "") : synthTask d ≠ "" := by
  unfold synthTask
  intro hc
  apply h
  have hdata : (String.mk (d.data.take 80)).data
      ++ (if d.length > 80 then "…" else "").data = [] := by
    have := congrArg String.data hc
    simpa [String.data_append] using this
  rcases List.append_eq_nil.mp hdata with ⟨h1, _⟩
  have h80 : (d.data.take 80) = [] := h1
  have hlen := congrArg List.length h80
  simp only [List.length_take, List.length_nil] at hlen
  have hdl : d.data.length = 0 := by omega
  have : d.data = [] := List.length_eq_zero.mp hdl
  cases d
  simp_all

/-- Claim C9, as stated, is false: for a description longer than 80
characters the synthesized task is the 80-character truncation plus an
ellipsis, hence 81 characters, not the plain 80-character truncation. -/
theorem claim_C9_counterexample :
    repair_tasks [some ⟨"", String.mk (List.replicate 81 'a')⟩]
      = [⟨String.mk (List.replicate 80 'a') ++ "…", String.mk (List.replicate 81 'a')⟩]
    ∧ (String.mk (List.replicate 80 'a') ++ "…")
        ≠ String.mk ((String.mk (List.replicate 81 'a')).data.take 80)
    ∧ (String.mk (List.replicate 80 'a') ++ "…").length = 81 := by
  refine ⟨by decide, by decide, by decide⟩

/-- Claim C9 (amended): every surviving entry of the task repair has a
non-blank task, and an entry with a blank task and a non-blank description
survives with its task synthesized as the first 80 characters of the
description plus a trailing ellipsis character when the description exceeds
80 characters. -/
theorem claim_C9 (tao : List (Option RawTaskItem)) :
    (∀ e ∈ repair_tasks tao, e.task ≠ "")
    ∧ (∀ it : RawTaskItem, some it ∈ tao → pyStrip it.task = "" →
        pyStrip it.description ≠ "" →
        (⟨synthTask (pyStrip it.description), pyStrip it.description⟩ : RawTaskItem)
          ∈ repair_tasks tao) := by
  constructor
  · intro e he
    have := List.of_mem_filter he
    simpa using this
  · intro it hmem htask hdesc
    unfold repair_tasks
    apply List.mem_filter.mpr
    constructor
    · apply List.mem_filterMap.mpr
      refine ⟨some it, hmem, ?_⟩
      simp [htask, hdesc]
    · simpa using synthTask_ne_empty hdesc

/-- Witness for claim C9 at a concrete input. -/
theorem claim_C9_witness :
    (∀ e ∈ repair_tasks [some ⟨" ", "do it"⟩], e.task ≠ "")
    ∧ (⟨synthTask (pyStrip "do it"), pyStrip "do it"⟩ : RawTaskItem)
        ∈ repair_tasks [some ⟨" ", "do it"⟩] :=
  ⟨(claim_C9 [some ⟨" ", "do it"⟩]).1,
   (claim_C9 [some ⟨" ", "do it"⟩]).2 ⟨" ", "do it"⟩ (by simp) (by decide) (by decide)⟩

end C9Proofs

/-- The loop body of extract_segment_lines: skip blank lines, skip lines not
starting with a left bracket, parse characters 1 through 5 with time_to_sec
and keep the line when the resulting seconds fall in the window. -/
def segStep (start_sec end_sec : Int) (acc : List String) (ln : String) : List String :=
  if pyStrip ln = "" then acc
  else
    match ln.data with
    | [] => acc
    | c :: _ =>
      if c ≠ '[' then acc
      else
        if start_sec ≤ time_to_sec (String.mk ((ln.data.drop 1).take 5))
            ∧ time_to_sec (String.mk ((ln.data.drop 1).take 5)) < end_sec then
          acc ++ [ln]
        else acc

/-- extract_segment_lines (src llamada_gpt.py lines 151-163): join the kept
lines with newlines, in original order.  The empty-data match arm is
unreachable because a line with a non-blank strip is nonempty. -/
def extract_segment_lines (lines : List String) (start_sec end_sec : Int) : String :=
  String.intercalate "\n" (lines.foldl (segStep start_sec end_sec) [])

/-- The predicate under which extract_segment_lines keeps a line. -/
def keepLine (start_sec end_sec : Int) (ln : String) : Bool :=
  if pyStrip ln = "" then false
  else
    match ln.data with
    | [] => false
    | c :: _ =>
      if c ≠ '[' then false
      else
        decide (start_sec ≤ time_to_sec (String.mk ((ln.data.drop 1).take 5))
          ∧ time_to_sec (String.mk ((ln.data.drop 1).take 5)) < end_sec)

/-- The seconds denoted by a well-formed bracketed MM:SS prefix in the wire
format of spec section 6, none when the line does not carry one. -/
def mmssPrefixVal (ln : String) : Option Nat :=
  match ln.data with
  | lb :: d1 :: d2 :: c :: s1 :: s2 :: rb :: _ =>
    if (lb = '[') && d1.isDigit && d2.isDigit && (c = ':') && s1.isDigit
        && s2.isDigit && (rb = ']') then
      some (((d1.toNat - 48) * 10 + (d2.toNat - 48)) * 60
        + ((s1.toNat - 48) * 10 + (s2.toNat - 48)))
    else none
  | _ => none

section C8Proofs

lemma time_to_sec_mk_digits {d1 d2 s1 s2 : Char}
    (h1 : d1.isDigit = true) (h2 : d2.isDigit = true)
    (h3 : s1.isDigit = true) (h4 : s2.isDigit = true) :
    time_to_sec (String.mk [d1, d2, ':', s1, s2])
      = ((((d1.toNat - 48) * 10 + (d2.toNat - 48)) * 60
          + ((s1.toNat - 48) * 10 + (s2.toNat - 48)) : Nat) : Int) := by
  unfold time_to_sec timeSplitParse
  rw [show (String.mk [d1, d2, ':', s1, s2]).data = [d1, d2, ':', s1, s2] from rfl]
  rw [splitOnChar_colon_mmss h1 h2 h3 h4]
  show (match pyInt (String.mk [d1, d2]), pyInt (String.mk [s1, s2]) with
      | some mi, some si => some (mi * 60 + si)
      | _, _ => none).getD 0 = _
  rw [pyInt_two_digits h1 h2, pyInt_two_digits h3 h4]
  simp only [Option.getD_some]
  push_cast
  ring

lemma dropWhile_ne_nil_of_mem {p : Char → Bool} {l : List Char} {a : Char}
    (hmem : a ∈ l) (h : p a = false) : l.dropWhile p ≠ [] := by
  induction l with
  | nil => cases hmem
  | cons x xs ih =>
    rw [List.dropWhile_cons]
    rcases List.mem_cons.mp hmem with rfl | hm
    · simp [h]
    · by_cases hx : p x = true
      · simpa [hx] using ih hm
      · simp [hx]

lemma pyStripL_ne_nil (a : Char) {cs : List Char}
    (hmem : a ∈ cs) (h : a.isWhitespace = false) : pyStripL cs ≠ [] := by
  have h1 : a ∈ cs.dropWhile Char.isWhitespace := by
    have hsplit : a ∈ cs.takeWhile Char.isWhitespace ++ cs.dropWhile Char.isWhitespace := by
      rw [List.takeWhile_append_dropWhile]; exact hmem
    rcases List.mem_append.mp hsplit with h' | h'
    · exact absurd (List.mem_takeWhile_imp h') (by simp [h])
    · exact h'
  have h2 : a ∈ (cs.dropWhile Char.isWhitespace).reverse := by simpa using h1
  have h3 := dropWhile_ne_nil_of_mem h2 h
  unfold pyStripL
  intro hc
  exact h3 (by simpa using congrArg List.reverse hc)

lemma mk_ne_empty {l : List Char} (h : l ≠ []) : String.mk l ≠ "" := by
  intro hc
  exact h (by simpa using congrArg String.data hc)

lemma segStep_eq (a b : Int) (acc : List String) (ln : String) :
    segStep a b acc ln = if keepLine a b ln = true then acc ++ [ln] else acc := by
  unfold segStep keepLine
  by_cases hb : pyStrip ln = ""
  · simp [hb]
  · rcases hld : ln.data with _ | ⟨c, rest⟩
    · simp [hb, hld]
    · by_cases hc : c = '['
      · by_cases hw : a ≤ time_to_sec (String.mk (rest.take 5))
            ∧ time_to_sec (String.mk (rest.take 5)) < b
        · simp [hb, hld, hc, hw]
        · simp [hb, hld, hc, hw]
      · simp [hb, hld, hc]

lemma foldl_segStep (a b : Int) (L : List String) :
    ∀ acc, L.foldl (segStep a b) acc = acc ++ L.filter (keepLine a b) := by
  induction L with
  | nil => simp
  | cons ln rest ih =>
    intro acc
    rw [List.foldl_cons, segStep_eq, List.filter_cons]
    by_cases hk : keepLine a b ln = true
    · simp [hk, ih]
    · simp [hk, ih]

/-- Claim C8, as stated, is false: a line starting with a left bracket but
carrying no well-formed MM:SS prefix is parsed to 0 seconds and returned for
a window containing 0, instead of being ignored. -/
theorem claim_C8_counterexample :
    extract_segment_lines ["[hello] x"] 0 10 = "[hello] x"
    ∧ mmssPrefixVal "[hello] x" = none := by
  constructor <;> decide

/-- Claim C8 (amended): extract_segment_lines returns, joined by newlines in
original order, exactly the lines that are non-blank, start with a left
bracket and whose characters 1 through 5 parsed by time_to_sec (0 on parse
failure) fall in the half-open window; a line with a well-formed bracketed
MM:SS prefix is therefore kept exactly when its timestamp is in the window,
but a line starting with a left bracket whose timestamp is malformed counts
as timestamp 0 rather than being ignored. -/
theorem claim_C8 (lines : List String) (a b : Int) :
    extract_segment_lines lines a b
      = String.intercalate "\n" (lines.filter (keepLine a b))
    ∧ ∀ ln v, mmssPrefixVal ln = some v →
        keepLine a b ln = (decide (a ≤ (v : Int)) && decide ((v : Int) < b)) := by
  constructor
  · unfold extract_segment_lines
    rw [foldl_segStep]
    rfl
  · intro ln v h
    rcases hld : ln.data with
        _ | ⟨lb, _ | ⟨d1, _ | ⟨d2, _ | ⟨c, _ | ⟨s1, _ | ⟨s2, _ | ⟨rb, rest⟩⟩⟩⟩⟩⟩⟩ <;>
        unfold mmssPrefixVal at h <;> rw [hld] at h <;>
      first
        | exact Option.noConfusion h
        | skip
    by_cases hcnd : ((lb = '[') && d1.isDigit && d2.isDigit && (c = ':') && s1.isDigit
        && s2.isDigit && (rb = ']')) = true
    · simp only [hcnd, if_pos] at h
      obtain ⟨⟨⟨⟨⟨⟨hlb, h1⟩, h2⟩, hcc⟩, h3⟩, h4⟩, hrb⟩ :=
        by simpa only [Bool.and_eq_true, decide_eq_true_eq] using hcnd
      subst hlb; subst hcc; subst hrb
      have hv : (((d1.toNat - 48) * 10 + (d2.toNat - 48)) * 60
          + ((s1.toNat - 48) * 10 + (s2.toNat - 48))) = v := by
        simpa using h
      have hne : pyStrip ln ≠ "" := by
        unfold pyStrip
        exact mk_ne_empty (pyStripL_ne_nil '[' (by rw [hld]; simp) (by decide))
      unfold keepLine
      rw [hld, if_neg hne]
      show (if ('[' : Char) ≠ '[' then false
        else decide (a ≤ time_to_sec (String.mk [d1, d2, ':', s1, s2])
          ∧ time_to_sec (String.mk [d1, d2, ':', s1, s2]) < b)) = _
      rw [if_neg (show ¬(('[' : Char) ≠ '[') by simp)]
      rw [time_to_sec_mk_digits h1 h2 h3 h4, hv]
      simp [Bool.decide_and]
    · simp [hcnd] at h

/-- Witness for claim C8 at a concrete input. -/
theorem claim_C8_witness :
    extract_segment_lines ["[00:05] hola", "x"] 0 10 = "[00:05] hola"
    ∧ mmssPrefixVal "[00:05] hola" = some 5
    ∧ keepLine 0 10 "[00:05] hola" = true := by
  refine ⟨?_, by decide, ?_⟩
  · rw [(claim_C8 ["[00:05] hola", "x"] 0 10).1]
    decide
  · have := (claim_C8 ["[00:05] hola", "x"] 0 10).2 "[00:05] hola" 5 (by decide)
    simpa using this

end C8Proofs

/-- Model of the Python str.split() with no argument, auxiliary loop; acc
holds the current word reversed. -/
def splitWsAux : List Char → List Char → List (List Char)
  | [], acc => if acc = [] then [] else [acc.reverse]
  | c :: rest, acc =>
    if c.isWhitespace then
      if acc = [] then splitWsAux rest []
      else acc.reverse :: splitWsAux rest []
    else splitWsAux rest (c :: acc)

/-- Model of the Python str.split() with no argument: the maximal runs of
non-whitespace characters, in order. -/
def pySplitWs (cs : List Char) : List (List Char) :=
  splitWsAux cs []

/-- Join a list of words with single spaces. -/
def joinSp : List (List Char) → List Char
  | [] => []
  | [w] => w
  | w :: ws => w ++ ' ' :: joinSp ws

/-- Join a list of words, appending one space after every word; this is the
shape of fragmento_actual inside the dividir_texto loop. -/
def joinWp (ws : List (List Char)) : List Char :=
  (ws.map (fun w => w ++ [' '])).flatten

/-- The fragment-accumulation loop of dividir_texto (src llamada_gpt.py
lines 65-70): fragmento_actual is the running characters, fragmentos the
finished fragments. -/
def dividirLoop (tam : Nat) : List (List Char) → List (List Char) → List Char →
    List (List Char) × List Char
  | [], frs, cur => (frs, cur)
  | p :: rest, frs, cur =>
    if cur.length + p.length + 1 ≤ tam then
      dividirLoop tam rest frs (cur ++ p ++ [' '])
    else
      dividirLoop tam rest (frs ++ [pyStripL cur]) (p ++ [' '])

/-- Run the dividir_texto loop from an intermediate state and flush the last
fragment when nonempty (src llamada_gpt.py lines 71-72). -/
def dividirFinish (tam : Nat) (rest frs : List (List Char)) (cur : List Char) :
    List (List Char) :=
  let r := dividirLoop tam rest frs cur
  if r.2 ≠ [] then r.1 ++ [pyStripL r.2] else r.1

/-- dividir_texto (src llamada_gpt.py lines 58-73): split into words, fill
fragments greedily, flush the last fragment when nonempty. -/
def dividir_texto (texto : String) (tamano_max : Nat) : List String :=
  (dividirFinish tamano_max (pySplitWs texto.data) [] []).map String.mk

/-- Join a list of fragments with single spaces, the reassembly used to state
the round-trip property of the chunker. -/
def joinSpS (fs : List String) : String :=
  String.mk (joinSp (fs.map String.data))

/-- A word produced by splitting: nonempty and free of whitespace. -/
def goodWord (w : List Char) : Prop :=
  w ≠ [] ∧ ∀ c ∈ w, c.isWhitespace = false

section C3WordLemmas

lemma joinSp_cons_cons (w x : List Char) (ys : List (List Char)) :
    joinSp (w :: x :: ys) = w ++ ' ' :: joinSp (x :: ys) := rfl

lemma splitWsAux_good : ∀ (cs acc : List Char),
    (∀ c ∈ acc, c.isWhitespace = false) →
    ∀ w ∈ splitWsAux cs acc, goodWord w := by
  intro cs
  induction cs with
  | nil =>
    intro acc hacc w hw
    unfold splitWsAux at hw
    by_cases ha : acc = []
    · simp [ha] at hw
    · simp only [ha, if_neg, if_false, List.mem_singleton] at hw
      subst hw
      refine ⟨by simpa using ha, ?_⟩
      intro c hc
      exact hacc c (by simpa using hc)
  | cons c rest ih =>
    intro acc hacc w hw
    unfold splitWsAux at hw
    by_cases hcw : c.isWhitespace = true
    · rw [if_pos hcw] at hw
      by_cases ha : acc = []
      · rw [if_pos ha] at hw
        exact ih [] (by simp) w hw
      · rw [if_neg ha] at hw
        rcases List.mem_cons.mp hw with rfl | hw2
        · refine ⟨by simpa using ha, ?_⟩
          intro d hd
          exact hacc d (by simpa using hd)
        · exact ih [] (by simp) w hw2
    · rw [if_neg hcw] at hw
      refine ih (c :: acc) ?_ w hw
      intro d hd
      rcases List.mem_cons.mp hd with rfl | hd2
      · exact Bool.eq_false_iff.mpr hcw
      · exact hacc d hd2

lemma pySplitWs_good {cs : List Char} : ∀ w ∈ pySplitWs cs, goodWord w :=
  splitWsAux_good cs [] (by simp)

lemma splitWsAux_cons_nonws {c : Char} (hc : c.isWhitespace = false)
    (rest acc : List Char) :
    splitWsAux (c :: rest) acc = splitWsAux rest (c :: acc) := by
  simp [splitWsAux, hc]

lemma splitWsAux_cons_ws {c : Char} (hc : c.isWhitespace = true)
    {acc : List Char} (ha : acc ≠ []) (rest : List Char) :
    splitWsAux (c :: rest) acc = acc.reverse :: splitWsAux rest [] := by
  simp [splitWsAux, hc, ha]

lemma splitWsAux_nil_ne {acc : List Char} (ha : acc ≠ []) :
    splitWsAux [] acc = [acc.reverse] := by
  simp [splitWsAux, ha]

lemma splitWsAux_word : ∀ (w : List Char) (cs acc : List Char),
    (∀ c ∈ w, c.isWhitespace = false) →
    splitWsAux (w ++ cs) acc = splitWsAux cs (w.reverse ++ acc) := by
  intro w
  induction w with
  | nil => intro cs acc _; simp
  | cons c w' ih =>
    intro cs acc hw
    have hc : c.isWhitespace = false := hw c (by simp)
    rw [List.cons_append, splitWsAux_cons_nonws hc]
    rw [ih cs (c :: acc) (fun d hd => hw d (by simp [hd]))]
    simp

lemma joinSp_ne_nil {g : List (List Char)} (hg : g ≠ [])
    (hgood : ∀ w ∈ g, goodWord w) : joinSp g ≠ [] := by
  rcases g with _ | ⟨w, ws⟩
  · exact absurd rfl hg
  · rcases ws with _ | ⟨x, ys⟩
    · exact (hgood w (by simp)).1
    · rw [joinSp_cons_cons]
      intro hc
      exact (hgood w (by simp)).1 (List.append_eq_nil.mp hc).1

lemma pySplitWs_joinSp : ∀ (g : List (List Char)),
    (∀ w ∈ g, goodWord w) → pySplitWs (joinSp g) = g := by
  intro g
  induction g with
  | nil => intro _; rfl
  | cons w ws ih =>
    intro hgood
    have hw := hgood w (by simp)
    rcases ws with _ | ⟨x, ys⟩
    · show pySplitWs (joinSp [w]) = [w]
      unfold pySplitWs
      rw [show joinSp [w] = w ++ [] by simp [joinSp]]
      rw [splitWsAux_word w [] [] hw.2, List.append_nil]
      rw [splitWsAux_nil_ne (by simpa using hw.1)]
      simp
    · unfold pySplitWs
      rw [joinSp_cons_cons,
        show w ++ ' ' :: joinSp (x :: ys) = w ++ (' ' :: joinSp (x :: ys)) from rfl]
      rw [splitWsAux_word w _ [] hw.2, List.append_nil]
      rw [splitWsAux_cons_ws (by decide) (by simpa using hw.1)]
      have := ih (fun u hu => hgood u (by simp [hu]))
      unfold pySplitWs at this
      rw [this]
      simp

lemma joinSp_append : ∀ (a b : List (List Char)), a ≠ [] → b ≠ [] →
    joinSp (a ++ b) = joinSp a ++ ' ' :: joinSp b := by
  intro a
  induction a with
  | nil => intro b ha _; exact absurd rfl ha
  | cons w a' ih =>
    intro b _ hb
    rcases a' with _ | ⟨x, xs⟩
    · rcases b with _ | ⟨y, ys⟩
      · exact absurd rfl hb
      · rw [show ([w] ++ y :: ys) = w :: y :: ys from rfl, joinSp_cons_cons]
        rfl
    · have hih := ih b (by simp) hb
      calc joinSp ((w :: x :: xs) ++ b)
          = w ++ ' ' :: joinSp ((x :: xs) ++ b) := rfl
        _ = w ++ ' ' :: (joinSp (x :: xs) ++ ' ' :: joinSp b) := by rw [hih]
        _ = joinSp (w :: x :: xs) ++ ' ' :: joinSp b := by
            rw [joinSp_cons_cons w x xs]; simp

lemma flatten_ne_nil_of_first {gs : List (List (List Char))} (hne : gs ≠ [])
    (hgood : ∀ g ∈ gs, g ≠ []) : gs.flatten ≠ [] := by
  rcases gs with _ | ⟨g, gs'⟩
  · exact absurd rfl hne
  · intro hc
    rw [List.flatten_cons] at hc
    exact hgood g (by simp) (List.append_eq_nil.mp hc).1

lemma joinSp_map_flatten : ∀ (gs : List (List (List Char))),
    (∀ g ∈ gs, g ≠ []) → joinSp (gs.map joinSp) = joinSp gs.flatten := by
  intro gs
  induction gs with
  | nil => intro _; rfl
  | cons g gs' ih =>
    intro hgood
    rcases gs' with _ | ⟨g2, gs''⟩
    · show joinSp [joinSp g] = joinSp (g ++ [].flatten)
      simp [joinSp]
    · rw [List.map_cons, List.map_cons, List.flatten_cons]
      rw [joinSp_cons_cons]
      have hmap : joinSp (joinSp g2 :: List.map joinSp gs'')
          = joinSp ((g2 :: gs'').flatten) := by
        have hi := ih (fun u hu => hgood u (by simp [hu]))
        rw [List.map_cons] at hi
        exact hi
      rw [hmap]
      rw [joinSp_append g ((g2 :: gs'').flatten) (hgood g (by simp))
        (flatten_ne_nil_of_first (by simp) (fun u hu => hgood u (by simp [hu])))]

end C3WordLemmas

/-- The word-group shape of the dividir_texto loop: the words packed into each
fragment, in order.  The branch condition coincides with the loop condition
because fragmento_actual always equals the words of the open group each
followed by one space. -/
def chunkGroups (tam : Nat) : List (List Char) → List (List Char) →
    List (List (List Char))
  | [], curg => if curg = [] then [] else [curg]
  | p :: rest, curg =>
    if (joinWp curg).length + p.length + 1 ≤ tam then
      chunkGroups tam rest (curg ++ [p])
    else
      curg :: chunkGroups tam rest [p]

section C3GroupLemmas

lemma joinWp_cons (w : List Char) (ws : List (List Char)) :
    joinWp (w :: ws) = w ++ ' ' :: joinWp ws := by
  simp [joinWp]

lemma joinWp_append_singleton (ws : List (List Char)) (p : List Char) :
    joinWp (ws ++ [p]) = joinWp ws ++ (p ++ [' ']) := by
  simp [joinWp]

lemma joinWp_cons_ne_nil (w : List Char) (ws : List (List Char)) :
    joinWp (w :: ws) ≠ [] := by
  rw [joinWp_cons]
  simp

lemma joinWp_eq_joinSp : ∀ (g : List (List Char)), g ≠ [] →
    joinWp g = joinSp g ++ [' '] := by
  intro g
  induction g with
  | nil => intro hg; exact absurd rfl hg
  | cons w ws ih =>
    intro _
    rcases ws with _ | ⟨x, ys⟩
    · simp [joinWp, joinSp]
    · rw [joinWp_cons, ih (by simp), joinSp_cons_cons]
      simp

lemma joinSp_concat_last : ∀ (g : List (List Char)),
    (∀ w ∈ g, goodWord w) → g ≠ [] →
    ∃ Y d, joinSp g = Y ++ [d] ∧ d.isWhitespace = false := by
  intro g
  induction g with
  | nil => intro _ hg; exact absurd rfl hg
  | cons w ws ih =>
    intro hgood _
    rcases ws with _ | ⟨x, ys⟩
    · have hw := hgood w (by simp)
      refine ⟨w.dropLast, w.getLast hw.1, ?_, hw.2 _ (List.getLast_mem hw.1)⟩
      show w = _
      rw [List.dropLast_append_getLast hw.1]
    · obtain ⟨Y, d, hYd, hd⟩ := ih (fun u hu => hgood u (by simp [hu])) (by simp)
      refine ⟨w ++ ' ' :: Y, d, ?_, hd⟩
      rw [joinSp_cons_cons, hYd]
      simp

lemma joinSp_head_cons (c : Char) (w' : List Char) (ws : List (List Char)) :
    ∃ Z, joinSp ((c :: w') :: ws) = c :: Z := by
  rcases ws with _ | ⟨x, ys⟩
  · exact ⟨w', rfl⟩
  · exact ⟨w' ++ ' ' :: joinSp (x :: ys), rfl⟩

lemma pyStripL_joinWp : ∀ (g : List (List Char)),
    (∀ w ∈ g, goodWord w) → pyStripL (joinWp g) = joinSp g := by
  intro g hgood
  rcases g with _ | ⟨w, ws⟩
  · rfl
  · obtain ⟨c, w', rfl⟩ : ∃ c w', w = c :: w' := by
      rcases w with _ | ⟨c, w'⟩
      · exact absurd rfl (hgood [] (by simp)).1
      · exact ⟨c, w', rfl⟩
    have hc : c.isWhitespace = false := (hgood (c :: w') (by simp)).2 c (by simp)
    obtain ⟨Y, d, hYd, hd⟩ := joinSp_concat_last ((c :: w') :: ws) hgood (by simp)
    obtain ⟨Z, hZ⟩ := joinSp_head_cons c w' ws
    have hX : joinWp ((c :: w') :: ws) = joinSp ((c :: w') :: ws) ++ [' '] :=
      joinWp_eq_joinSp _ (by simp)
    unfold pyStripL
    rw [hX]
    have h1 : (joinSp ((c :: w') :: ws) ++ [' ']).dropWhile Char.isWhitespace
        = joinSp ((c :: w') :: ws) ++ [' '] := by
      have hshape : joinSp ((c :: w') :: ws) ++ [' '] = c :: (Z ++ [' ']) := by
        rw [hZ]; rfl
      rw [hshape, List.dropWhile_cons, if_neg (by simp [hc])]
    rw [h1, List.reverse_append]
    simp only [List.reverse_cons, List.reverse_nil, List.nil_append,
      List.singleton_append]
    rw [List.dropWhile_cons, if_pos (by decide)]
    have h4 : (joinSp ((c :: w') :: ws)).reverse = d :: Y.reverse := by
      rw [hYd, List.reverse_append]
      simp
    rw [h4, List.dropWhile_cons, if_neg (by simp [hd]), ← h4, List.reverse_reverse]

lemma dividirFinish_cons (tam : Nat) (p : List Char) (rest frs : List (List Char))
    (cur : List Char) :
    dividirFinish tam (p :: rest) frs cur
      = if cur.length + p.length + 1 ≤ tam then
          dividirFinish tam rest frs (cur ++ p ++ [' '])
        else
          dividirFinish tam rest (frs ++ [pyStripL cur]) (p ++ [' ']) := by
  by_cases hc : cur.length + p.length + 1 ≤ tam <;>
    simp [dividirFinish, dividirLoop, hc]

lemma dividirFinish_eq_chunkGroups (tam : Nat) :
    ∀ (rest : List (List Char)), (∀ w ∈ rest, goodWord w) →
    ∀ (curg frs : List (List Char)), (∀ w ∈ curg, goodWord w) →
    dividirFinish tam rest frs (joinWp curg)
      = frs ++ (chunkGroups tam rest curg).map joinSp := by
  intro rest
  induction rest with
  | nil =>
    intro _ curg frs hcurg
    rcases curg with _ | ⟨w, ws⟩
    · simp [dividirFinish, dividirLoop, joinWp, chunkGroups]
    · unfold dividirFinish dividirLoop chunkGroups
      rw [if_pos (by simpa using joinWp_cons_ne_nil w ws)]
      rw [if_neg (by simp)]
      rw [pyStripL_joinWp _ hcurg]
      simp
  | cons p rest ih =>
    intro hrest curg frs hcurg
    rw [dividirFinish_cons]
    unfold chunkGroups
    by_cases hcond : (joinWp curg).length + p.length + 1 ≤ tam
    · rw [if_pos hcond, if_pos hcond]
      rw [show joinWp curg ++ p ++ [' '] = joinWp (curg ++ [p]) by
        rw [joinWp_append_singleton]; simp]
      exact ih (fun u hu => hrest u (by simp [hu])) (curg ++ [p]) frs
        (by
          intro u hu
          rcases List.mem_append.mp hu with hu2 | hu2
          · exact hcurg u hu2
          · rw [List.mem_singleton.mp hu2]; exact hrest p (by simp))
    · rw [if_neg hcond, if_neg hcond]
      rw [pyStripL_joinWp _ hcurg]
      rw [show (p ++ [' ']) = joinWp [p] by simp [joinWp]]
      rw [ih (fun u hu => hrest u (by simp [hu])) [p] (frs ++ [joinSp curg])
        (by intro u hu; rw [List.mem_singleton.mp hu]; exact hrest p (by simp))]
      simp

end C3GroupLemmas

section C3Properties

variable {tam : Nat}

lemma chunkGroups_flatten : ∀ (rest curg : List (List Char)),
    (chunkGroups tam rest curg).flatten = curg ++ rest := by
  intro rest
  induction rest with
  | nil =>
    intro curg
    by_cases hc : curg = [] <;> simp [chunkGroups, hc]
  | cons p rest ih =>
    intro curg
    unfold chunkGroups
    by_cases hcond : (joinWp curg).length + p.length + 1 ≤ tam
    · rw [if_pos hcond, ih]
      simp
    · rw [if_neg hcond, List.flatten_cons, ih]
      simp

lemma chunkGroups_mem_ne_nil : ∀ (rest : List (List Char)),
    (∀ w ∈ rest, w.length + 1 ≤ tam) →
    ∀ (curg : List (List Char)), ∀ g ∈ chunkGroups tam rest curg, g ≠ [] := by
  intro rest
  induction rest with
  | nil =>
    intro _ curg g hg
    unfold chunkGroups at hg
    by_cases hc : curg = []
    · simp [hc] at hg
    · rw [if_neg hc] at hg
      rw [List.mem_singleton.mp hg]
      exact hc
  | cons p rest ih =>
    intro hsz curg g hg
    unfold chunkGroups at hg
    by_cases hcond : (joinWp curg).length + p.length + 1 ≤ tam
    · rw [if_pos hcond] at hg
      exact ih (fun u hu => hsz u (by simp [hu])) (curg ++ [p]) g hg
    · rw [if_neg hcond] at hg
      rcases List.mem_cons.mp hg with rfl | hg2
      · intro hce
        subst hce
        exact hcond (by simpa [joinWp] using hsz p (by simp))
      · exact ih (fun u hu => hsz u (by simp [hu])) [p] g hg2

lemma chunkGroups_size : ∀ (rest : List (List Char)),
    (∀ w ∈ rest, w.length + 1 ≤ tam) →
    ∀ (curg : List (List Char)), (joinWp curg).length ≤ tam →
    ∀ g ∈ chunkGroups tam rest curg, (joinWp g).length ≤ tam := by
  intro rest
  induction rest with
  | nil =>
    intro _ curg hcur g hg
    unfold chunkGroups at hg
    by_cases hc : curg = []
    · simp [hc] at hg
    · rw [if_neg hc] at hg
      rw [List.mem_singleton.mp hg]
      exact hcur
  | cons p rest ih =>
    intro hsz curg hcur g hg
    unfold chunkGroups at hg
    by_cases hcond : (joinWp curg).length + p.length + 1 ≤ tam
    · rw [if_pos hcond] at hg
      refine ih (fun u hu => hsz u (by simp [hu])) (curg ++ [p]) ?_ g hg
      rw [joinWp_append_singleton]
      simpa [Nat.add_assoc] using hcond
    · rw [if_neg hcond] at hg
      rcases List.mem_cons.mp hg with rfl | hg2
      · exact hcur
      · refine ih (fun u hu => hsz u (by simp [hu])) [p] ?_ g hg2
        simpa [joinWp] using hsz p (by simp)

lemma chunkGroups_ne_nil_of_cur : ∀ (rest : List (List Char))
    (curg : List (List Char)), curg ≠ [] → chunkGroups tam rest curg ≠ [] := by
  intro rest
  induction rest with
  | nil =>
    intro curg hc
    unfold chunkGroups
    rw [if_neg hc]
    simp
  | cons p rest ih =>
    intro curg _
    unfold chunkGroups
    by_cases hcond : (joinWp curg).length + p.length + 1 ≤ tam
    · rw [if_pos hcond]
      exact ih (curg ++ [p]) (by simp)
    · rw [if_neg hcond]
      simp

end C3Properties

section C3Theorems

/-- Claim C3, as stated, is false: with a maximum exactly equal to the length
of the longest word, the loop condition fails on the first word and an empty
leading fragment is emitted, so joining the fragments with single spaces does
not reproduce the whitespace-normalized text. -/
theorem claim_C3_counterexample :
    (∀ w ∈ pySplitWs ("ab".data), w.length ≤ 2)
    ∧ dividir_texto "ab" 2 = ["", "ab"]
    ∧ joinSpS (dividir_texto "ab" 2) ≠ String.mk (joinSp (pySplitWs ("ab".data))) := by
  refine ⟨by decide, by decide, by decide⟩

/-- Claim C3 (amended): for every input text and every maximum fragment size
strictly greater than the length of every word, dividir_texto returns an
ordered sequence of fragments, nonempty exactly when the input has words,
such that no fragment exceeds the size limit, no word is split across
fragments, and joining the fragments with single spaces reproduces the
whitespace-normalized token sequence; word-free input yields the empty
sequence. -/
theorem claim_C3 (texto : String) (tam : Nat)
    (h : ∀ w ∈ pySplitWs texto.data, w.length + 1 ≤ tam) :
    (pySplitWs texto.data ≠ [] → dividir_texto texto tam ≠ [])
    ∧ (pySplitWs texto.data = [] → dividir_texto texto tam = [])
    ∧ (∀ f ∈ dividir_texto texto tam, f.length ≤ tam)
    ∧ joinSpS (dividir_texto texto tam) = String.mk (joinSp (pySplitWs texto.data))
    ∧ ((dividir_texto texto tam).map (fun f => pySplitWs f.data)).flatten
        = pySplitWs texto.data := by
  have hgoodW : ∀ w ∈ pySplitWs texto.data, goodWord w := pySplitWs_good
  have hEq : dividir_texto texto tam
      = (chunkGroups tam (pySplitWs texto.data) []).map
          (fun g => String.mk (joinSp g)) := by
    unfold dividir_texto
    rw [show ([] : List Char) = joinWp [] from rfl,
      dividirFinish_eq_chunkGroups tam (pySplitWs texto.data) hgoodW [] [] (by simp)]
    simp
  have hGne : ∀ g ∈ chunkGroups tam (pySplitWs texto.data) [], g ≠ [] :=
    chunkGroups_mem_ne_nil (pySplitWs texto.data) h []
  have hGflat : (chunkGroups tam (pySplitWs texto.data) []).flatten
      = pySplitWs texto.data := by
    rw [chunkGroups_flatten]
    rfl
  have hGgood : ∀ g ∈ chunkGroups tam (pySplitWs texto.data) [],
      ∀ w ∈ g, goodWord w := by
    intro g hg w hw
    refine hgoodW w ?_
    rw [← hGflat]
    exact List.mem_flatten.mpr ⟨g, hg, hw⟩
  refine ⟨?_, ?_, ?_, ?_, ?_⟩
  · intro hW
    rw [hEq]
    rcases hWd : pySplitWs texto.data with _ | ⟨p, r⟩
    · exact absurd hWd hW
    · intro hc
      rcases List.map_eq_nil_iff.mp hc with hc2
      revert hc2
      unfold chunkGroups
      by_cases hcond : (joinWp []).length + p.length + 1 ≤ tam
      · rw [if_pos hcond]
        exact chunkGroups_ne_nil_of_cur r [p] (by simp)
      · rw [if_neg hcond]
        simp
  · intro hW
    rw [hEq, hW]
    rfl
  · intro f hf
    rw [hEq] at hf
    obtain ⟨g, hg, rfl⟩ := List.mem_map.mp hf
    have hsz := chunkGroups_size (pySplitWs texto.data) h [] (by simp [joinWp]) g hg
    have hjw : joinWp g = joinSp g ++ [' '] := joinWp_eq_joinSp g (hGne g hg)
    rw [hjw] at hsz
    simp only [List.length_append, List.length_singleton] at hsz
    show (joinSp g).length ≤ tam
    omega
  · rw [hEq]
    unfold joinSpS
    rw [List.map_map]
    have hdat : ((fun f => String.data f) ∘ fun g => String.mk (joinSp g))
        = fun g => joinSp g := by
      funext g
      rfl
    rw [hdat, joinSp_map_flatten _ hGne, hGflat]
  · rw [hEq, List.map_map]
    have hcomp : ((fun f => pySplitWs f.data) ∘ fun g => String.mk (joinSp g))
        = fun g => pySplitWs (joinSp g) := by
      funext g
      rfl
    rw [hcomp]
    have hid : (chunkGroups tam (pySplitWs texto.data) []).map
        (fun g => pySplitWs (joinSp g))
        = (chunkGroups tam (pySplitWs texto.data) []).map id := by
      apply List.map_congr_left
      intro g hg
      exact pySplitWs_joinSp g (hGgood g hg)
    rw [hid, List.map_id, hGflat]

/-- Witness for claim C3 at a concrete input. -/
theorem claim_C3_witness :
    (∀ w ∈ pySplitWs ("hola que tal".data), w.length + 1 ≤ 5)
    ∧ dividir_texto "hola que tal" 5 ≠ []
    ∧ (∀ f ∈ dividir_texto "hola que tal" 5, f.length ≤ 5)
    ∧ joinSpS (dividir_texto "hola que tal" 5)
        = String.mk (joinSp (pySplitWs ("hola que tal".data)))
    ∧ ((dividir_texto "hola que tal" 5).map (fun f => pySplitWs f.data)).flatten
        = pySplitWs ("hola que tal".data) := by
  have hmain := claim_C3 "hola que tal" 5 (by decide)
  exact ⟨by decide, hmain.1 (by decide), hmain.2.2.1, hmain.2.2.2.1, hmain.2.2.2.2⟩

end C3Theorems

/-- A digit character. -/
def digitChar (d : Nat) : Char := Char.ofNat (48 + d)

/-- Decimal digits of n, least significant first, with fuel for structural
recursion. -/
def natToRevDigits : Nat → Nat → List Char
  | 0, _ => []
  | fuel + 1, n =>
    if n < 10 then [digitChar n]
    else digitChar (n % 10) :: natToRevDigits fuel (n / 10)

/-- Decimal rendering of a natural number, the model of Python string
formatting of the integer suffix. -/
def natRepr (n : Nat) : String :=
  String.mk (natToRevDigits (n + 1) n).reverse

/-- Model of the Python str.lower method. -/
def pyLower (s : String) : String :=
  String.mk (s.data.map Char.toLower)

/-- A topic of the structured summary (class MainPoint, src llamada_gpt.py
lines 23-26). -/
structure MainPoint where
  title : String
  id : String
  time : Option String
deriving DecidableEq

/-- A cited timestamp (class KeyTimestamp, src lines 29-31). -/
structure KeyTimestamp where
  description : String
  time : Option String
deriving DecidableEq

/-- A per-topic detail (class DetailedSummaryItem, src lines 34-38). -/
structure DetailedSummaryItem where
  title : String
  content : String
  key_timestamps : List KeyTimestamp
  start_time : Option String
deriving DecidableEq

/-- Document metadata (class Metadata, src lines 16-20). -/
structure Metadata where
  title : String
  participants : List String
deriving DecidableEq

/-- A successfully parsed partial result of one fragment (class
StructuredSummaryNoTasks, src lines 52-55).  The detailed_summary dict is
modeled as an insertion-ordered association list. -/
structure PartialRes where
  metadata : Metadata
  main_points : List MainPoint
  detailed_summary : Option (List (String × DetailedSummaryItem))
deriving DecidableEq

/-- Lookup in an insertion-ordered association list, the model of Python dict
indexing and dict get. -/
def dictGet {α : Type} : List (String × α) → String → Option α
  | [], _ => none
  | kv :: rest, k => if kv.1 = k then some kv.2 else dictGet rest k

/-- Model of Python dict assignment: update the entry in place when the key
exists, append it otherwise. -/
def dictInsert {α : Type} : List (String × α) → String → α → List (String × α)
  | [], k, v => [(k, v)]
  | kv :: rest, k, v =>
    if kv.1 = k then (k, v) :: rest else kv :: dictInsert rest k v

/-- Model of Python dict pop with default: remove the entry with that key. -/
def dictPop {α : Type} (d : List (String × α)) (k : String) : List (String × α) :=
  d.filter (fun kv => kv.1 ≠ k)

/-- The keys of an association list in order. -/
def dictKeys {α : Type} (d : List (String × α)) : List String :=
  d.map Prod.fst

/-- Truthiness of an optional string in Python: present and nonempty. -/
def pyTruthy (v : Option String) : Bool :=
  match v with
  | none => false
  | some s => decide (s ≠ "")

/-- The dedup key of an incoming topic (src llamada_gpt.py lines 433-435):
normalized title, a separator bar, and the stripped time. -/
def mpKey (mp : MainPoint) : String :=
  _normalize_text mp.title ++ "|" ++ pyStrip (mp.time.getD "")

/-- The candidate identifiers tried by _ensure_unique_id: the base itself,
then the base with numeric suffixes 1, 2, and so on. -/
def candAt (base : String) (k : Nat) : String :=
  if k = 0 then base else base ++ "_" ++ natRepr k

/-- The while loop of _ensure_unique_id, with enough fuel to reach a fresh
candidate. -/
def euiLoop (used : List String) (base : String) : Nat → Nat → String
  | k, 0 => candAt base k
  | k, fuel + 1 =>
    if candAt base k ∈ used then euiLoop used base (k + 1) fuel else candAt base k

/-- _ensure_unique_id (src llamada_gpt.py lines 421-429): default an empty
base to item, then append numeric suffixes until the candidate is unused;
returns the fresh identifier and the grown used set. -/
def _ensure_unique_id (used : List String) (base0 : String) : String × List String :=
  let base := if base0 = "" then "item" else base0
  let c := euiLoop used base 0 (used.length + 1)
  (c, c :: used)

/-- The merge accumulator of the chunk loop (src llamada_gpt.py
lines 198-201, 389-390). -/
structure MergeState where
  global_main_points : List MainPoint
  global_detailed_summary : List (String × DetailedSummaryItem)
  used_ids : List String
  seen_main_point_keys : List String
  metadata_final : Option Metadata
deriving DecidableEq

/-- The per-chunk accumulator of the topic loop (src lines 409-411 and the
live used and seen sets). -/
structure ChunkAcc where
  used : List String
  seen : List String
  filtered : List MainPoint
  remapped : List (String × DetailedSummaryItem)
deriving DecidableEq

/-- One iteration of the topic loop (src llamada_gpt.py lines 431-458): drop
same-key duplicates, mint a collision-free identifier, record the topic and
attach its detail under the final identifier.  The unreachable
try/except around the detail lookup is not modeled. -/
def stepTopic (gmpLen : Nat) (incoming : List (String × DetailedSummaryItem))
    (acc : ChunkAcc) (mp : MainPoint) : ChunkAcc :=
  if mpKey mp ∈ acc.seen then acc
  else
    let original_id := mp.id
    let idUsed :=
      if original_id = "" ∨ original_id ∈ acc.used then
        _ensure_unique_id acc.used
          (if original_id ≠ "" then original_id
           else "pt_" ++ natRepr (gmpLen + acc.filtered.length + 1))
      else (original_id, original_id :: acc.used)
    let newMp := { mp with id := idUsed.1 }
    let lookupKey := if original_id ∈ dictKeys incoming then original_id else newMp.id
    { used := idUsed.2,
      seen := mpKey mp :: acc.seen,
      filtered := acc.filtered ++ [newMp],
      remapped :=
        match dictGet incoming lookupKey with
        | some detail => dictInsert acc.remapped newMp.id detail
        | none => acc.remapped }

/-- The accumulator of the detail-application loop (src lines 463-476). -/
structure DetailAcc where
  gds : List (String × DetailedSummaryItem)
  used : List String
  gmp : List MainPoint
deriving DecidableEq

/-- Replace the identifier of the first topic carrying the old identifier
(the for-break loop of src lines 471-474). -/
def replaceFirstId : List MainPoint → String → String → List MainPoint
  | [], _, _ => []
  | mp :: rest, did, nid =>
    if mp.id = did then { mp with id := nid } :: rest
    else mp :: replaceFirstId rest did nid

/-- One iteration of the detail-application loop (src llamada_gpt.py
lines 465-476): attach a remapped detail, re-keying defensively on a
collision that the identifier discipline makes unreachable. -/
def applyDetailStep (acc : DetailAcc) (kv : String × DetailedSummaryItem) : DetailAcc :=
  if kv.1 ∈ dictKeys acc.gds then
    let r := _ensure_unique_id acc.used kv.1
    { gds := dictInsert acc.gds r.1 kv.2, used := r.2,
      gmp := replaceFirstId acc.gmp kv.1 r.1 }
  else { acc with gds := dictInsert acc.gds kv.1 kv.2 }

/-- Processing of one fragment outcome (src llamada_gpt.py lines 393-477):
a failed call leaves the state untouched; a parsed result refreshes the used
identifiers, runs the topic loop, extends the topics and applies the
remapped details.  Only the first fragment contributes metadata. -/
def processChunk (idx : Nat) (st : MergeState) (partialRes : Option PartialRes) :
    MergeState :=
  match partialRes with
  | none => st
  | some pr =>
    let used0 := (st.used_ids ++ st.global_main_points.map MainPoint.id)
      ++ dictKeys st.global_detailed_summary
    let incoming := pr.detailed_summary.getD []
    let acc := pr.main_points.foldl
      (stepTopic st.global_main_points.length incoming)
      ⟨used0, st.seen_main_point_keys, [], []⟩
    let r := acc.remapped.foldl applyDetailStep
      ⟨st.global_detailed_summary, acc.used, st.global_main_points ++ acc.filtered⟩
    { global_main_points := r.gmp,
      global_detailed_summary := r.gds,
      used_ids := r.used,
      seen_main_point_keys := acc.seen,
      metadata_final := if idx = 0 then some pr.metadata else st.metadata_final }

/-- The incremental merge over all fragment outcomes, from the empty state. -/
def processAll (partialList : List (Option PartialRes)) : MergeState :=
  partialList.enum.foldl (fun st ip => processChunk ip.1 st ip.2)
    ⟨[], [], [], [], none⟩

/-- _merge_detail_items (src llamada_gpt.py lines 360-387): merge contents,
keep the earlier nonempty start time, union the key timestamps deduplicated
by the pair of stripped time and normalized description. -/
def _merge_detail_items (target source : Option DetailedSummaryItem) :
    Option DetailedSummaryItem :=
  match target, source with
  | none, s => s
  | some t, none => some t
  | some t, some s =>
    let start_time :=
      if pyTruthy s.start_time ∧ (¬ pyTruthy t.start_time
          ∨ _time_to_seconds s.start_time < _time_to_seconds t.start_time)
      then s.start_time else t.start_time
    let existing := t.key_timestamps.map
      (fun kt => (pyStrip (kt.time.getD ""), _normalize_text kt.description))
    let kts := s.key_timestamps.foldl
      (fun (p : List KeyTimestamp × List (String × String)) ts =>
        let key := (pyStrip (ts.time.getD ""), _normalize_text ts.description)
        if key ∈ p.2 then p else (p.1 ++ [ts], key :: p.2))
      (t.key_timestamps, existing)
    some { t with
      content := _merge_content t.content s.content,
      start_time := start_time,
      key_timestamps := kts.1 }

/-- The signature under which the reconciliation pass groups topics (src
lines 485-487): normalized title, falling back to the lowercased id. -/
def sigOf (mp : MainPoint) : String :=
  let s := _normalize_text mp.title
  if s = "" then pyLower mp.id else s

/-- The accumulator of the reconciliation pass; the Python mapping from
signature to canonical topic object is modeled by the index of the canonical
topic in the deduplicated list, so that in-place mutation of the shared
object is reflected. -/
structure DedupAcc where
  sigIdx : List (String × Nat)
  deduped : List MainPoint
  gds : List (String × DetailedSummaryItem)
deriving DecidableEq

/-- One iteration of _dedupe_main_points_and_details (src llamada_gpt.py
lines 484-506): keep first-seen topics, pull an earlier nonempty time onto
the canonical topic, merge details into the canonical entry and drop the
detail entry of the duplicate. -/
def dedupeStep (acc : DedupAcc) (mp : MainPoint) : DedupAcc :=
  let signature := sigOf mp
  let detail := dictGet acc.gds mp.id
  match dictGet acc.sigIdx signature with
  | some i =>
    match acc.deduped[i]? with
    | some ex =>
      let exTime :=
        if pyTruthy mp.time ∧ (¬ pyTruthy ex.time
            ∨ _time_to_seconds mp.time < _time_to_seconds ex.time)
        then mp.time else ex.time
      let deduped1 := acc.deduped.set i { ex with time := exTime }
      let gds1 :=
        match _merge_detail_items (dictGet acc.gds ex.id) detail with
        | some m => dictInsert acc.gds ex.id m
        | none => acc.gds
      let gds2 := if detail.isSome ∧ mp.id ≠ ex.id then dictPop gds1 mp.id else gds1
      { acc with deduped := deduped1, gds := gds2 }
    | none => acc
  | none =>
    { sigIdx := dictInsert acc.sigIdx signature acc.deduped.length,
      deduped := acc.deduped ++ [mp], gds := acc.gds }

/-- _dedupe_main_points_and_details (src llamada_gpt.py lines 479-513):
group by signature, merge duplicates into the first-seen topic, then delete
orphan detail entries. -/
def _dedupe_main_points_and_details (st : MergeState) : MergeState :=
  let acc := st.global_main_points.foldl dedupeStep ⟨[], [], st.global_detailed_summary⟩
  { st with
    global_main_points := acc.deduped,
    global_detailed_summary :=
      acc.gds.filter (fun kv => kv.1 ∈ acc.deduped.map MainPoint.id) }

/-- The body of one iteration of the cross-topic bullet deduplication for a
topic whose detail entry exists (src llamada_gpt.py lines 524-541). -/
def crossUpdate (p : List String × List (String × DetailedSummaryItem))
    (mp : MainPoint) (item : DetailedSummaryItem) :
    List String × List (String × DetailedSummaryItem) :=
  if item.content = "" then p
  else
    let lines := ((splitOnChar '\n' item.content.data).map String.mk).filter
      (fun ln => pyStrip ln ≠ "")
    let r := lines.foldl
      (fun (q : List String × List String × List String) ln =>
        let norm := _normalize_text (stripBulletPref (pyStrip ln))
        if norm ∈ q.2.2 ∨ norm ∈ q.2.1 then q
        else (q.1 ++ [ln], norm :: q.2.1, norm :: q.2.2))
      ([], [], p.1)
    let new_lines := if r.1 = [] ∧ lines ≠ [] then [lines.headD ""] else r.1
    (r.2.2, dictInsert p.2 mp.id
      { item with content := String.intercalate "\n" new_lines })

/-- One iteration of the cross-topic bullet deduplication (src llamada_gpt.py
lines 521-541), over the pair of the global seen set and the details. -/
def crossStep (p : List String × List (String × DetailedSummaryItem))
    (mp : MainPoint) : List String × List (String × DetailedSummaryItem) :=
  match dictGet p.2 mp.id with
  | none => p
  | some item => crossUpdate p mp item

/-- _dedupe_detailed_content_across_items (src llamada_gpt.py lines 518-545):
walk topics in final order and drop bullet lines whose normalized form was
already emitted, keeping at least one line per topic.  The enclosing
try/except cannot fire on this pure computation and is not modeled. -/
def _dedupe_detailed_content_across_items (st : MergeState) : MergeState :=
  { st with global_detailed_summary :=
      (st.global_main_points.foldl crossStep ([], st.global_detailed_summary)).2 }

/-- The serialized final document (src llamada_gpt.py lines 561-567). -/
structure FinalDoc where
  metadata : Metadata
  main_points : List MainPoint
  detailed_summary : List (String × DetailedSummaryItem)
deriving DecidableEq

/-- Metadata finalization (src llamada_gpt.py lines 551-559): default the
title, and inject the externally supplied participants when missing. -/
def finalizeMetadata (md : Option Metadata) (participants : List String) : Metadata :=
  let m := match md with
    | none => { title := "Acta de Reunión", participants := [] }
    | some m0 => m0
  if m.participants = [] ∧ participants ≠ [] then
    { m with participants := participants }
  else m

/-- The merge state of the chunked path of gpt after the fragment fold, the
global reconciliation pass and the cross-topic bullet deduplication (src
llamada_gpt.py lines 393-545).  The external generation calls are abstracted
by the list of per-fragment outcomes, none modeling a failed call. -/
def finalState (outcomes : List (Option PartialRes)) : MergeState :=
  _dedupe_detailed_content_across_items
    (_dedupe_main_points_and_details (processAll outcomes))

/-- The fatal-on-empty gate and serialization of gpt (src llamada_gpt.py
lines 547-574). -/
def gptResult (outcomes : List (Option PartialRes)) (participants : List String) :
    Except String FinalDoc :=
  let st := finalState outcomes
  if st.global_main_points = [] then
    Except.error "No se generaron main_points en ninguno de los fragmentos."
  else
    Except.ok { metadata := finalizeMetadata st.metadata_final participants,
                main_points := st.global_main_points,
                detailed_summary := st.global_detailed_summary }

/-- The default document written when the transcript file is missing (src
llamada_gpt.py lines 180-186). -/
def errorDoc : FinalDoc :=
  { metadata := { title := "Error: Transcript not found", participants := [] },
    main_points := [], detailed_summary := [] }

/-- The top level of gpt (src llamada_gpt.py lines 167-191): reading the
transcript file is abstracted by an Option, none modeling
FileNotFoundError; on a missing file the function writes the default error
document to resumen.json and returns normally, otherwise it runs the chunked
pipeline on the per-fragment outcomes. -/
def gpt_run (fileContent : Option String) (participants : List String)
    (outcomes : List (Option PartialRes)) : Except String FinalDoc :=
  match fileContent with
  | none => Except.ok errorDoc
  | some _ => gptResult outcomes participants

/-- A topic of the one-shot minutes document (class MinutesMainPoint, src
lines 607-610). -/
structure MinutesMainPoint where
  id : String
  title : String
  time : Option String
deriving DecidableEq

/-- A detail of the one-shot minutes document (class MinutesDetailItem, src
lines 613-615). -/
structure MinutesDetailItem where
  title : String
  content : String
deriving DecidableEq

/-- An action item of the one-shot minutes document (class MinutesActionItem,
src lines 618-620). -/
structure MinutesActionItem where
  task : String
  description : String
deriving DecidableEq

/-- The one-shot minutes document (class MinutesResponse, src lines 623-628,
with details as an insertion-ordered association list). -/
structure MinutesDoc where
  objective : String
  metadata : Metadata
  main_points : List MinutesMainPoint
  details : List (String × MinutesDetailItem)
  tasks_and_objectives : List MinutesActionItem
deriving DecidableEq

/-- The top-level error handling of generate_minutes (src llamada_gpt.py
lines 700-860): the whole body is a single try/except; the attempt argument
abstracts the document the try block would return, none modeling any raised
exception, in particular total failure of the generation call.  The except
branch returns the minimal well-formed document with the supplied
participants. -/
def generate_minutes (attempt : Option MinutesDoc) (participants : List String) :
    MinutesDoc :=
  match attempt with
  | some d => d
  | none =>
    { objective := "",
      metadata := { title := "Acta de Reunión", participants := participants },
      main_points := [], details := [], tasks_and_objectives := [] }

section FreshIdLemmas

lemma toNat_digitChar {d : Nat} (hd : d ≤ 9) : (digitChar d).toNat = 48 + d := by
  interval_cases d <;> decide

/-- Value of a least-significant-first digit list, used to invert the decimal
rendering. -/
def ofRevDigits : List Char → Nat
  | [] => 0
  | c :: rest => (c.toNat - 48) + 10 * ofRevDigits rest

lemma ofRevDigits_natToRevDigits : ∀ (fuel n : Nat), n < fuel →
    ofRevDigits (natToRevDigits fuel n) = n := by
  intro fuel
  induction fuel with
  | zero => intro n h; omega
  | succ f ih =>
    intro n h
    unfold natToRevDigits
    by_cases h10 : n < 10
    · rw [if_pos h10]
      show (digitChar n).toNat - 48 + 10 * 0 = n
      rw [toNat_digitChar (by omega)]
      omega
    · rw [if_neg h10]
      show (digitChar (n % 10)).toNat - 48 + 10 * ofRevDigits (natToRevDigits f (n / 10)) = n
      rw [toNat_digitChar (by omega), ih (n / 10) (by omega)]
      omega

lemma natRepr_inj {m n : Nat} (h : natRepr m = natRepr n) : m = n := by
  have hdata := congrArg String.data h
  simp only [natRepr] at hdata
  have hrev : natToRevDigits (m + 1) m = natToRevDigits (n + 1) n :=
    List.reverse_injective hdata
  calc m = ofRevDigits (natToRevDigits (m + 1) m) :=
        (ofRevDigits_natToRevDigits (m + 1) m (by omega)).symm
    _ = ofRevDigits (natToRevDigits (n + 1) n) := by rw [hrev]
    _ = n := ofRevDigits_natToRevDigits (n + 1) n (by omega)

lemma natRepr_data_ne_nil (n : Nat) : (natRepr n).data ≠ [] := by
  show (natToRevDigits (n + 1) n).reverse ≠ []
  unfold natToRevDigits
  by_cases h10 : n < 10 <;> simp [h10]

lemma candAt_injOn (base : String) {j k : Nat} (h : candAt base j = candAt base k) :
    j = k := by
  unfold candAt at h
  by_cases hj : j = 0 <;> by_cases hk : k = 0
  · omega
  · exfalso
    rw [if_pos hj, if_neg hk] at h
    have hd := congrArg String.data h
    simp only [String.data_append] at hd
    have hlen := congrArg List.length hd
    simp only [List.length_append] at hlen
    have := natRepr_data_ne_nil k
    have : 0 < (natRepr k).data.length := List.length_pos.mpr this
    omega
  · exfalso
    rw [if_neg hj, if_pos hk] at h
    have hd := congrArg String.data h
    simp only [String.data_append] at hd
    have hlen := congrArg List.length hd
    simp only [List.length_append] at hlen
    have := natRepr_data_ne_nil j
    have : 0 < (natRepr j).data.length := List.length_pos.mpr this
    omega
  · rw [if_neg hj, if_neg hk] at h
    have hd := congrArg String.data h
    simp only [String.data_append, List.append_assoc] at hd
    have h2 := List.append_cancel_left hd
    have h3 := List.append_cancel_left h2
    exact natRepr_inj (by
      have : (natRepr j) = (natRepr k) := by
        cases hnj : natRepr j
        cases hnk : natRepr k
        simp_all
      exact this)

lemma euiLoop_fresh (used : List String) (base : String) :
    ∀ (fuel k : Nat), (∃ j, k ≤ j ∧ j < k + fuel ∧ candAt base j ∉ used) →
    euiLoop used base k fuel ∉ used := by
  intro fuel
  induction fuel with
  | zero =>
    rintro k ⟨j, h1, h2, _⟩
    omega
  | succ f ih =>
    rintro k ⟨j, h1, h2, h3⟩
    unfold euiLoop
    by_cases hc : candAt base k ∈ used
    · rw [if_pos hc]
      apply ih (k + 1)
      rcases Nat.eq_or_lt_of_le h1 with rfl | hlt
      · exact absurd hc h3
      · exact ⟨j, by omega, by omega, h3⟩
    · rw [if_neg hc]
      exact hc

lemma ensure_unique_fresh (used : List String) (base0 : String) :
    (_ensure_unique_id used base0).1 ∉ used := by
  unfold _ensure_unique_id
  apply euiLoop_fresh
  by_contra hall
  push_neg at hall
  set base := if base0 = "" then "item" else base0 with hbase
  have hsub : (Finset.range (used.length + 1)).image (candAt base)
      ⊆ used.toFinset := by
    intro x hx
    obtain ⟨j, hj, rfl⟩ := Finset.mem_image.mp hx
    have hj2 : j < 0 + (used.length + 1) := by
      simpa using Finset.mem_range.mp hj
    exact List.mem_toFinset.mpr (hall j (by omega) hj2)
  have hcard1 : ((Finset.range (used.length + 1)).image (candAt base)).card
      = used.length + 1 := by
    rw [Finset.card_image_of_injOn (fun a _ b _ hab => candAt_injOn base hab)]
    simp
  have hcard2 := Finset.card_le_card hsub
  have hcard3 : used.toFinset.card ≤ used.length := used.toFinset_card_le
  omega

lemma ensure_unique_used (used : List String) (base0 : String) :
    (_ensure_unique_id used base0).2 = (_ensure_unique_id used base0).1 :: used := rfl

end FreshIdLemmas

section DictLemmas

variable {α : Type}

lemma dictKeys_append (a b : List (String × α)) :
    dictKeys (a ++ b) = dictKeys a ++ dictKeys b := by
  simp [dictKeys]

lemma dictInsert_not_mem {d : List (String × α)} {k : String} (v : α)
    (h : k ∉ dictKeys d) : dictInsert d k v = d ++ [(k, v)] := by
  induction d with
  | nil => rfl
  | cons kv rest ih =>
    unfold dictInsert
    rw [if_neg (by
      intro hc
      exact h (by simp [dictKeys, hc]))]
    rw [ih (by
      intro hc
      exact h (by simp [dictKeys] at hc ⊢; exact Or.inr hc))]
    simp

lemma dictKeys_insert_mem {d : List (String × α)} {k : String} (v : α)
    (h : k ∈ dictKeys d) : dictKeys (dictInsert d k v) = dictKeys d := by
  induction d with
  | nil => simp [dictKeys] at h
  | cons kv rest ih =>
    unfold dictInsert
    by_cases hk : kv.1 = k
    · rw [if_pos hk]
      show k :: dictKeys rest = kv.1 :: dictKeys rest
      rw [hk]
    · rw [if_neg hk]
      have h2 : k ∈ kv.1 :: dictKeys rest := h
      have hmem : k ∈ dictKeys rest := by
        rcases List.mem_cons.mp h2 with hc | hc
        · exact absurd hc.symm hk
        · exact hc
      show kv.1 :: dictKeys (dictInsert rest k v) = kv.1 :: dictKeys rest
      rw [ih hmem]

lemma dictGet_mem_keys {d : List (String × α)} {k : String} {v : α}
    (h : dictGet d k = some v) : k ∈ dictKeys d := by
  induction d with
  | nil => simp [dictGet] at h
  | cons kv rest ih =>
    unfold dictGet at h
    by_cases hk : kv.1 = k
    · simp [dictKeys, hk]
    · rw [if_neg hk] at h
      simp [dictKeys]
      exact Or.inr (by simpa [dictKeys] using ih h)

lemma dictGet_not_mem {d : List (String × α)} {k : String}
    (h : k ∉ dictKeys d) : dictGet d k = none := by
  induction d with
  | nil => rfl
  | cons kv rest ih =>
    unfold dictGet
    rw [if_neg (by
      intro hc
      exact h (by simp [dictKeys, hc]))]
    exact ih (by
      intro hc
      exact h (by simp [dictKeys] at hc ⊢; exact Or.inr hc))

end DictLemmas

section MergeInvariants

/-- Invariant of the per-chunk topic loop, relative to the refreshed used set
and the seen keys at loop entry: the used set only grows, filtered topics
carry pairwise distinct fresh identifiers recorded in the used set, the
remapped details are keyed by filtered identifiers, and filtered topics carry
pairwise distinct dedup keys that are fresh with respect to loop entry. -/
def AccInv (used0 seen0 : List String) (a : ChunkAcc) : Prop :=
  (∀ x ∈ used0, x ∈ a.used)
  ∧ (a.filtered.map MainPoint.id).Nodup
  ∧ (∀ i ∈ a.filtered.map MainPoint.id, i ∈ a.used ∧ i ∉ used0)
  ∧ (dictKeys a.remapped).Nodup
  ∧ (∀ k ∈ dictKeys a.remapped, k ∈ a.filtered.map MainPoint.id)
  ∧ (∀ x ∈ seen0, x ∈ a.seen)
  ∧ (a.filtered.map mpKey).Nodup
  ∧ (∀ mp ∈ a.filtered, mpKey mp ∈ a.seen ∧ mpKey mp ∉ seen0)

lemma mpKey_set_id (mp : MainPoint) (x : String) :
    mpKey { mp with id := x } = mpKey mp := rfl

lemma idUsed_fresh (used : List String) (origId fallback : String) :
    (if origId = "" ∨ origId ∈ used then _ensure_unique_id used fallback
     else (origId, origId :: used)).1 ∉ used := by
  by_cases hcond : origId = "" ∨ origId ∈ used
  · rw [if_pos hcond]
    exact ensure_unique_fresh used fallback
  · rw [if_neg hcond]
    push_neg at hcond
    exact hcond.2

lemma idUsed_snd (used : List String) (origId fallback : String) :
    (if origId = "" ∨ origId ∈ used then _ensure_unique_id used fallback
     else (origId, origId :: used)).2
    = (if origId = "" ∨ origId ∈ used then _ensure_unique_id used fallback
       else (origId, origId :: used)).1 :: used := by
  by_cases hcond : origId = "" ∨ origId ∈ used
  · rw [if_pos hcond]
    rfl
  · rw [if_neg hcond]

lemma remappedKeys_inv {acc : ChunkAcc}
    (h4 : (dictKeys acc.remapped).Nodup)
    (h5 : ∀ k ∈ dictKeys acc.remapped, k ∈ acc.filtered.map MainPoint.id)
    {rid : String} (hnotf : rid ∉ acc.filtered.map MainPoint.id)
    (dg : Option DetailedSummaryItem) :
    (dictKeys (match dg with
      | some detail => dictInsert acc.remapped rid detail
      | none => acc.remapped)).Nodup
    ∧ (∀ k ∈ dictKeys (match dg with
        | some detail => dictInsert acc.remapped rid detail
        | none => acc.remapped), k ∈ acc.filtered.map MainPoint.id ++ [rid]) := by
  rcases dg with _ | detail
  · exact ⟨h4, fun k hk => List.mem_append.mpr (Or.inl (h5 k hk))⟩
  · have hrid : rid ∉ dictKeys acc.remapped := fun hc => hnotf (h5 rid hc)
    constructor
    · show (dictKeys (dictInsert acc.remapped rid detail)).Nodup
      rw [dictInsert_not_mem detail hrid, dictKeys_append, List.nodup_append]
      refine ⟨h4, by simp [dictKeys], ?_⟩
      intro k hk hc
      have hkr : k = rid := by simpa [dictKeys] using hc
      subst hkr
      exact hnotf (h5 _ hk)
    · show ∀ k ∈ dictKeys (dictInsert acc.remapped rid detail),
        k ∈ acc.filtered.map MainPoint.id ++ [rid]
      intro k hk
      rw [dictInsert_not_mem detail hrid, dictKeys_append] at hk
      rcases List.mem_append.mp hk with hk2 | hk2
      · exact List.mem_append.mpr (Or.inl (h5 k hk2))
      · have hkr : k = rid := by simpa [dictKeys] using hk2
        subst hkr
        exact List.mem_append.mpr (Or.inr (by simp))

lemma stepTopic_inv {used0 seen0 : List String} {acc : ChunkAcc}
    (h : AccInv used0 seen0 acc) (gmpLen : Nat)
    (incoming : List (String × DetailedSummaryItem)) (mp : MainPoint) :
    AccInv used0 seen0 (stepTopic gmpLen incoming acc mp) := by
  obtain ⟨h1, h2, h3, h4, h5, h6, h7, h8⟩ := h
  unfold stepTopic
  by_cases hseen : mpKey mp ∈ acc.seen
  · rw [if_pos hseen]
    exact ⟨h1, h2, h3, h4, h5, h6, h7, h8⟩
  · rw [if_neg hseen]
    simp only []
    set fallback := (if mp.id ≠ "" then mp.id
      else "pt_" ++ natRepr (gmpLen + acc.filtered.length + 1)) with hfb
    set r := (if mp.id = "" ∨ mp.id ∈ acc.used then _ensure_unique_id acc.used fallback
      else (mp.id, mp.id :: acc.used)) with hr
    have hfresh : r.1 ∉ acc.used := idUsed_fresh acc.used mp.id fallback
    have hsnd : r.2 = r.1 :: acc.used := idUsed_snd acc.used mp.id fallback
    have hNewNotFiltered : r.1 ∉ acc.filtered.map MainPoint.id := by
      intro hc
      exact hfresh (h3 r.1 hc).1
    have hNewNotUsed0 : r.1 ∉ used0 := by
      intro hc
      exact hfresh (h1 r.1 hc)
    have hKeyNot : ∀ mp2 ∈ acc.filtered, mpKey mp2 ≠ mpKey mp := by
      intro mp2 hmp2 hc
      exact hseen (hc ▸ (h8 mp2 hmp2).1)
    constructor
    · intro x hx
      rw [hsnd]
      exact List.mem_cons.mpr (Or.inr (h1 x hx))
    constructor
    · rw [List.map_append]
      simp only [List.map_cons, List.map_nil]
      rw [List.nodup_append]
      refine ⟨h2, by simp, ?_⟩
      intro i hi
      simp only [List.mem_singleton, List.mem_cons, List.not_mem_nil, or_false]
      intro hc
      exact hNewNotFiltered (hc ▸ hi)
    constructor
    · intro i hi
      rw [List.map_append] at hi
      rcases List.mem_append.mp hi with hi2 | hi2
      · refine ⟨?_, (h3 i hi2).2⟩
        rw [hsnd]
        exact List.mem_cons.mpr (Or.inr (h3 i hi2).1)
      · have : i = r.1 := by simpa using hi2
        subst this
        exact ⟨by rw [hsnd]; exact List.mem_cons.mpr (Or.inl rfl), hNewNotUsed0⟩
    constructor
    · exact (remappedKeys_inv h4 h5 hNewNotFiltered _).1
    constructor
    · intro k hk
      have hmem := (remappedKeys_inv h4 h5 hNewNotFiltered
        (dictGet incoming (if mp.id ∈ dictKeys incoming then mp.id else r.1))).2 k hk
      rw [List.map_append]
      simpa using hmem
    constructor
    · intro x hx
      exact List.mem_cons.mpr (Or.inr (h6 x hx))
    constructor
    · rw [List.map_append]
      simp only [List.map_cons, List.map_nil, mpKey_set_id]
      rw [List.nodup_append]
      refine ⟨h7, by simp, ?_⟩
      intro x hx
      simp only [List.mem_singleton, List.mem_cons, List.not_mem_nil, or_false]
      obtain ⟨mp2, hmp2, rfl⟩ := List.mem_map.mp hx
      intro hc
      exact hKeyNot mp2 hmp2 hc
    · intro mp2 hmp2
      rcases List.mem_append.mp hmp2 with hm | hm
      · exact ⟨List.mem_cons.mpr (Or.inr (h8 mp2 hm).1), (h8 mp2 hm).2⟩
      · have : mp2 = { mp with id := r.1 } := by simpa using hm
        subst this
        rw [mpKey_set_id]
        exact ⟨List.mem_cons.mpr (Or.inl rfl), fun hc => hseen (h6 _ hc)⟩

lemma foldl_stepTopic_inv {used0 seen0 : List String} (gmpLen : Nat)
    (incoming : List (String × DetailedSummaryItem)) :
    ∀ (mps : List MainPoint) (acc : ChunkAcc), AccInv used0 seen0 acc →
    AccInv used0 seen0 (mps.foldl (stepTopic gmpLen incoming) acc) := by
  intro mps
  induction mps with
  | nil => intro acc h; exact h
  | cons mp rest ih =>
    intro acc h
    rw [List.foldl_cons]
    exact ih _ (stepTopic_inv h gmpLen incoming mp)

lemma foldl_applyDetailStep :
    ∀ (rem gds : List (String × DetailedSummaryItem)) (used : List String)
      (gmp : List MainPoint),
    (dictKeys rem).Nodup → (∀ k ∈ dictKeys rem, k ∉ dictKeys gds) →
    rem.foldl applyDetailStep ⟨gds, used, gmp⟩ = ⟨gds ++ rem, used, gmp⟩ := by
  intro rem
  induction rem with
  | nil => intro gds used gmp _ _; simp
  | cons kv rest ih =>
    intro gds used gmp hnd hdisj
    rw [List.foldl_cons]
    have hk1 : kv.1 ∉ dictKeys gds := hdisj kv.1 (by simp [dictKeys])
    have hstep : applyDetailStep ⟨gds, used, gmp⟩ kv = ⟨gds ++ [kv], used, gmp⟩ := by
      unfold applyDetailStep
      rw [if_neg hk1, dictInsert_not_mem kv.2 hk1]
    rw [hstep]
    have hndr : (dictKeys rest).Nodup := by
      rw [show dictKeys (kv :: rest) = kv.1 :: dictKeys rest from rfl] at hnd
      exact hnd.of_cons
    have hne : kv.1 ∉ dictKeys rest := by
      rw [show dictKeys (kv :: rest) = kv.1 :: dictKeys rest from rfl] at hnd
      exact (List.nodup_cons.mp hnd).1
    rw [ih (gds ++ [kv]) used gmp hndr (by
      intro k hk
      rw [dictKeys_append]
      intro hc
      rcases List.mem_append.mp hc with hc2 | hc2
      · exact hdisj k (show k ∈ dictKeys (kv :: rest) from
          List.mem_cons.mpr (Or.inr hk)) hc2
      · have hkk : k = kv.1 := by simpa [dictKeys] using hc2
        subst hkk
        exact hne hk)]
    simp

/-- Invariant of the merge state across chunks: topic identifiers pairwise
distinct, detail keys pairwise distinct, topic dedup keys pairwise distinct
and all recorded in the seen set. -/
def StInv (st : MergeState) : Prop :=
  (st.global_main_points.map MainPoint.id).Nodup
  ∧ (dictKeys st.global_detailed_summary).Nodup
  ∧ (st.global_main_points.map mpKey).Nodup
  ∧ (∀ mp ∈ st.global_main_points, mpKey mp ∈ st.seen_main_point_keys)

lemma processChunk_inv {st : MergeState} (h : StInv st) (idx : Nat)
    (pres : Option PartialRes) : StInv (processChunk idx st pres) := by
  obtain ⟨h1, h2, h3, h4⟩ := h
  rcases pres with _ | pr
  · exact ⟨h1, h2, h3, h4⟩
  · unfold processChunk
    simp only []
    set used0 := (st.used_ids ++ st.global_main_points.map MainPoint.id)
      ++ dictKeys st.global_detailed_summary with hused0
    have hids0 : ∀ i ∈ st.global_main_points.map MainPoint.id, i ∈ used0 := by
      intro i hi
      rw [hused0]
      exact List.mem_append.mpr (Or.inl (List.mem_append.mpr (Or.inr hi)))
    have hkeys0 : ∀ k ∈ dictKeys st.global_detailed_summary, k ∈ used0 := by
      intro k hk
      rw [hused0]
      exact List.mem_append.mpr (Or.inr hk)
    set acc := pr.main_points.foldl
      (stepTopic st.global_main_points.length (pr.detailed_summary.getD []))
      ⟨used0, st.seen_main_point_keys, [], []⟩ with hacc
    have hinv : AccInv used0 st.seen_main_point_keys acc := by
      rw [hacc]
      apply foldl_stepTopic_inv
      exact ⟨fun x hx => hx, by simp, by simp, by simp [dictKeys],
        by simp [dictKeys], fun x hx => hx, by simp, by simp⟩
    obtain ⟨a1, a2, a3, a4, a5, a6, a7, a8⟩ := hinv
    have happ := foldl_applyDetailStep acc.remapped st.global_detailed_summary
      acc.used (st.global_main_points ++ acc.filtered) a4
      (by
        intro k hk hc
        exact (a3 k (a5 k hk)).2 (hkeys0 k hc))
    rw [happ]
    refine ⟨?_, ?_, ?_, ?_⟩
    · rw [List.map_append, List.nodup_append]
      refine ⟨h1, a2, ?_⟩
      intro i hi hc
      exact (a3 i hc).2 (hids0 i hi)
    · rw [dictKeys_append, List.nodup_append]
      refine ⟨h2, a4, ?_⟩
      intro k hk hc
      exact (a3 k (a5 k hc)).2 (hkeys0 k hk)
    · rw [List.map_append, List.nodup_append]
      refine ⟨h3, a7, ?_⟩
      intro x hx hc
      obtain ⟨mp2, hmp2, rfl⟩ := List.mem_map.mp hc
      obtain ⟨mp3, hmp3, hx2⟩ := List.mem_map.mp hx
      exact (a8 mp2 hmp2).2 (hx2 ▸ h4 mp3 hmp3)
    · intro mp hmp
      rcases List.mem_append.mp hmp with hm | hm
      · exact a6 _ (h4 mp hm)
      · exact (a8 mp hm).1

lemma foldl_processChunk_inv :
    ∀ (l : List (Nat × Option PartialRes)) (st : MergeState), StInv st →
    StInv (l.foldl (fun s ip => processChunk ip.1 s ip.2) st) := by
  intro l
  induction l with
  | nil => intro st h; exact h
  | cons ip rest ih =>
    intro st h
    rw [List.foldl_cons]
    exact ih _ (processChunk_inv h ip.1 ip.2)

lemma processAll_inv (outcomes : List (Option PartialRes)) :
    StInv (processAll outcomes) :=
  foldl_processChunk_inv _ _ ⟨by simp, by simp [dictKeys], by simp, by simp⟩

end MergeInvariants

section DedupeLemmas

lemma map_id_set_same {l : List MainPoint} :
    ∀ {i : Nat} {ex e : MainPoint}, l[i]? = some ex → e.id = ex.id →
    (l.set i e).map MainPoint.id = l.map MainPoint.id := by
  induction l with
  | nil => intro i ex e hi _; simp at hi
  | cons x rest ih =>
    intro i ex e hi hid
    rcases i with _ | j
    · simp only [List.getElem?_cons_zero, Option.some.injEq] at hi
      subst hi
      simp [hid]
    · simp only [List.getElem?_cons_succ] at hi
      simp only [List.set_cons_succ, List.map_cons]
      rw [ih hi hid]

lemma dedupeStep_deduped_ids (acc : DedupAcc) (mp : MainPoint) :
    ((dedupeStep acc mp).deduped.map MainPoint.id = acc.deduped.map MainPoint.id)
    ∨ ((dedupeStep acc mp).deduped.map MainPoint.id
        = acc.deduped.map MainPoint.id ++ [mp.id]) := by
  rcases hsig : dictGet acc.sigIdx (sigOf mp) with _ | i
  · right
    simp [dedupeStep, hsig]
  · rcases hex : acc.deduped[i]? with _ | ex
    · left
      simp [dedupeStep, hsig, hex]
    · left
      simp only [dedupeStep, hsig, hex]
      exact map_id_set_same hex rfl

lemma dedupe_fold_ids_nodup :
    ∀ (mps : List MainPoint) (acc : DedupAcc),
    ((acc.deduped.map MainPoint.id) ++ mps.map MainPoint.id).Nodup →
    (((mps.foldl dedupeStep acc).deduped).map MainPoint.id).Nodup := by
  intro mps
  induction mps with
  | nil =>
    intro acc h
    simpa using h
  | cons mp rest ih =>
    intro acc h
    rw [List.foldl_cons]
    apply ih
    rcases dedupeStep_deduped_ids acc mp with heq | heq
    · rw [heq]
      refine List.Nodup.sublist ?_ h
      exact (List.sublist_cons_self _ _).append_left _
    · rw [heq, List.append_assoc]
      simpa using h

lemma dedupe_keys_subset (st : MergeState) :
    ∀ k ∈ dictKeys (_dedupe_main_points_and_details st).global_detailed_summary,
    k ∈ (_dedupe_main_points_and_details st).global_main_points.map MainPoint.id := by
  intro k hk
  unfold _dedupe_main_points_and_details at hk ⊢
  simp only [] at hk ⊢
  obtain ⟨kv, hkv, rfl⟩ := List.mem_map.mp hk
  have hpred := (List.mem_filter.mp hkv).2
  simpa using hpred

lemma dedupe_ids_nodup {st : MergeState}
    (h : (st.global_main_points.map MainPoint.id).Nodup) :
    ((_dedupe_main_points_and_details st).global_main_points.map MainPoint.id).Nodup := by
  unfold _dedupe_main_points_and_details
  simp only []
  apply dedupe_fold_ids_nodup
  simpa using h

lemma crossStep_keys (p : List String × List (String × DetailedSummaryItem))
    (mp : MainPoint) : dictKeys (crossStep p mp).2 = dictKeys p.2 := by
  rcases hdg : dictGet p.2 mp.id with _ | item
  · simp [crossStep, hdg]
  · simp only [crossStep, hdg]
    unfold crossUpdate
    by_cases hc : item.content = ""
    · rw [if_pos hc]
    · rw [if_neg hc]
      exact dictKeys_insert_mem _ (dictGet_mem_keys hdg)

lemma cross_fold_keys : ∀ (mps : List MainPoint)
    (p : List String × List (String × DetailedSummaryItem)),
    dictKeys ((mps.foldl crossStep p).2) = dictKeys p.2 := by
  intro mps
  induction mps with
  | nil => intro p; rfl
  | cons mp rest ih =>
    intro p
    rw [List.foldl_cons, ih, crossStep_keys]

lemma cross_gmp (st : MergeState) :
    (_dedupe_detailed_content_across_items st).global_main_points
      = st.global_main_points := rfl

lemma cross_keys (st : MergeState) :
    dictKeys (_dedupe_detailed_content_across_items st).global_detailed_summary
      = dictKeys st.global_detailed_summary := by
  unfold _dedupe_detailed_content_across_items
  exact cross_fold_keys st.global_main_points ([], st.global_detailed_summary)

lemma countP_id_eq_count {l : List MainPoint} {k : String} :
    l.countP (fun mp => mp.id == k) = (l.map MainPoint.id).count k := by
  induction l with
  | nil => rfl
  | cons mp rest ih =>
    rw [List.countP_cons, List.map_cons, List.count_cons, ih]

end DedupeLemmas

section MergeTheorems

lemma foldl_stepTopic_seen (gmpLen : Nat)
    (incoming : List (String × DetailedSummaryItem)) :
    ∀ (mps : List MainPoint) (acc : ChunkAcc),
    (∀ mp ∈ mps, mpKey mp ∈ acc.seen) →
    mps.foldl (stepTopic gmpLen incoming) acc = acc := by
  intro mps
  induction mps with
  | nil => intro acc _; rfl
  | cons mp rest ih =>
    intro acc h
    rw [List.foldl_cons]
    have hstep : stepTopic gmpLen incoming acc mp = acc := by
      unfold stepTopic
      rw [if_pos (h mp (by simp))]
    rw [hstep]
    exact ih acc (fun m hm => h m (by simp [hm]))

lemma processChunk_all_dup {st : MergeState} (idx : Nat) (pr : PartialRes)
    (h : ∀ mp ∈ pr.main_points, mpKey mp ∈ st.seen_main_point_keys) :
    (processChunk idx st (some pr)).global_main_points = st.global_main_points
    ∧ (processChunk idx st (some pr)).global_detailed_summary
        = st.global_detailed_summary := by
  unfold processChunk
  simp only []
  rw [foldl_stepTopic_seen st.global_main_points.length (pr.detailed_summary.getD [])
    pr.main_points _ h]
  constructor <;> simp

/-- Claim C4: during incremental merging the dedup key of a topic is the
normalized title joined by a bar to the stripped time, no two accumulated
topics ever share a dedup key, and a topic whose key was already seen is
dropped together with its detail while the earlier occurrence survives
unchanged: the topic loop leaves its accumulator untouched on a seen key
(nothing appended, no detail remapped, nothing replaced), every accumulated
topic has its key in the seen set, and processing, in the same or a later
fragment, a partial result whose topics all duplicate accumulated dedup keys
changes neither the topic list nor the detail mapping. -/
theorem claim_C4 (outcomes : List (Option PartialRes)) :
    List.Pairwise (fun a b => mpKey a ≠ mpKey b)
      (processAll outcomes).global_main_points
    ∧ (∀ (gmpLen : Nat) (incoming : List (String × DetailedSummaryItem))
        (acc : ChunkAcc) (mp : MainPoint), mpKey mp ∈ acc.seen →
        stepTopic gmpLen incoming acc mp = acc)
    ∧ (∀ mp ∈ (processAll outcomes).global_main_points,
        mpKey mp ∈ (processAll outcomes).seen_main_point_keys)
    ∧ (∀ (idx : Nat) (pr : PartialRes),
        (∀ mp ∈ pr.main_points, ∃ mp0 ∈ (processAll outcomes).global_main_points,
          mpKey mp0 = mpKey mp) →
        (processChunk idx (processAll outcomes) (some pr)).global_main_points
          = (processAll outcomes).global_main_points
        ∧ (processChunk idx (processAll outcomes) (some pr)).global_detailed_summary
          = (processAll outcomes).global_detailed_summary) := by
  refine ⟨?_, ?_, ?_, ?_⟩
  · have h := (processAll_inv outcomes).2.2.1
    rw [List.Nodup, List.pairwise_map] at h
    exact h
  · intro gmpLen incoming acc mp h
    unfold stepTopic
    rw [if_pos h]
  · exact (processAll_inv outcomes).2.2.2
  · intro idx pr hdup
    apply processChunk_all_dup
    intro mp hmp
    obtain ⟨mp0, hmp0, hkey⟩ := hdup mp hmp
    exact hkey ▸ (processAll_inv outcomes).2.2.2 mp0 hmp0

/-- Witness for claim C4: a second fragment repeating the accumulated topic
under a case and spacing variant of the title at the same time shares its
dedup key, and its processing leaves both the topic list and the detail
mapping exactly as they were. -/
theorem claim_C4_witness :
    mpKey ⟨"Presupuesto", "p1", some "05:00"⟩
      = mpKey ⟨"presupuesto ", "p2", some "05:00"⟩
    ∧ (processAll [some ⟨⟨"Acta", []⟩, [⟨"Presupuesto", "p1", some "05:00"⟩],
        some [("p1", ⟨"Presupuesto", "- gastos", [], none⟩)]⟩]).global_main_points
      = [⟨"Presupuesto", "p1", some "05:00"⟩]
    ∧ (processChunk 1
        (processAll [some ⟨⟨"Acta", []⟩, [⟨"Presupuesto", "p1", some "05:00"⟩],
          some [("p1", ⟨"Presupuesto", "- gastos", [], none⟩)]⟩])
        (some ⟨⟨"Acta", []⟩, [⟨"presupuesto ", "p2", some "05:00"⟩],
          some [("p2", ⟨"presupuesto", "- otros", [], none⟩)]⟩)).global_main_points
      = (processAll [some ⟨⟨"Acta", []⟩, [⟨"Presupuesto", "p1", some "05:00"⟩],
          some [("p1", ⟨"Presupuesto", "- gastos", [], none⟩)]⟩]).global_main_points
    ∧ (processChunk 1
        (processAll [some ⟨⟨"Acta", []⟩, [⟨"Presupuesto", "p1", some "05:00"⟩],
          some [("p1", ⟨"Presupuesto", "- gastos", [], none⟩)]⟩])
        (some ⟨⟨"Acta", []⟩, [⟨"presupuesto ", "p2", some "05:00"⟩],
          some [("p2", ⟨"presupuesto", "- otros", [], none⟩)]⟩)).global_detailed_summary
      = (processAll [some ⟨⟨"Acta", []⟩, [⟨"Presupuesto", "p1", some "05:00"⟩],
          some [("p1", ⟨"Presupuesto", "- gastos", [], none⟩)]⟩]).global_detailed_summary := by
  have h := claim_C4 [some ⟨⟨"Acta", []⟩, [⟨"Presupuesto", "p1", some "05:00"⟩],
    some [("p1", ⟨"Presupuesto", "- gastos", [], none⟩)]⟩]
  have h4 := h.2.2.2 1
    ⟨⟨"Acta", []⟩, [⟨"presupuesto ", "p2", some "05:00"⟩],
      some [("p2", ⟨"presupuesto", "- otros", [], none⟩)]⟩
    (by decide)
  exact ⟨by decide, by decide, h4.1, h4.2⟩

/-- Claim C1: after the incremental merge, the global reconciliation pass and
the cross-topic bullet deduplication, all topic identifiers are pairwise
distinct and every key of the detail mapping equals the identifier of exactly
one topic. -/
theorem claim_C1 (outcomes : List (Option PartialRes)) :
    (((finalState outcomes).global_main_points.map MainPoint.id).Nodup)
    ∧ ∀ k ∈ dictKeys (finalState outcomes).global_detailed_summary,
        (finalState outcomes).global_main_points.countP (fun mp => mp.id == k) = 1 := by
  have hnodup0 := (processAll_inv outcomes).1
  have hnodup1 := dedupe_ids_nodup hnodup0
  have hids : ((finalState outcomes).global_main_points.map MainPoint.id).Nodup := by
    unfold finalState
    rw [cross_gmp]
    exact hnodup1
  refine ⟨hids, ?_⟩
  intro k hk
  have hk2 : k ∈ dictKeys (_dedupe_main_points_and_details
      (processAll outcomes)).global_detailed_summary := by
    have := cross_keys (_dedupe_main_points_and_details (processAll outcomes))
    unfold finalState at hk
    rw [this] at hk
    exact hk
  have hmem : k ∈ (finalState outcomes).global_main_points.map MainPoint.id := by
    unfold finalState
    rw [cross_gmp]
    exact dedupe_keys_subset (processAll outcomes) k hk2
  rw [countP_id_eq_count]
  exact List.count_eq_one_of_mem hids hmem

lemma processChunk_none (idx : Nat) (st : MergeState) :
    processChunk idx st none = st := rfl

lemma processAll_all_none {outcomes : List (Option PartialRes)}
    (h : ∀ p ∈ outcomes, p = none) :
    processAll outcomes = ⟨[], [], [], [], none⟩ := by
  unfold processAll
  have hgen : ∀ (l : List (Nat × Option PartialRes)) (st : MergeState),
      (∀ ip ∈ l, ip.2 = none) →
      l.foldl (fun s ip => processChunk ip.1 s ip.2) st = st := by
    intro l
    induction l with
    | nil => intro st _; rfl
    | cons ip rest ih =>
      intro st hl
      rw [List.foldl_cons, hl ip (by simp), processChunk_none]
      exact ih st (fun x hx => hl x (by simp [hx]))
  apply hgen
  intro ip hip
  apply h
  have : ip.2 ∈ outcomes.enum.map Prod.snd := List.mem_map_of_mem Prod.snd hip
  rwa [List.enum_map_snd] at this

/-- Claim C2: when every fragment generation call fails, the chunked path
raises the fatal no-main-points error instead of producing an empty document,
while generate_minutes under total failure returns the minimal well-formed
document with empty main points, details and tasks instead of raising. -/
theorem claim_C2 (outcomes : List (Option PartialRes)) (ps : List String)
    (h : ∀ p ∈ outcomes, p = none) :
    gptResult outcomes ps
      = Except.error "No se generaron main_points en ninguno de los fragmentos."
    ∧ generate_minutes none ps
      = { objective := "",
          metadata := { title := "Acta de Reunión", participants := ps },
          main_points := [], details := [], tasks_and_objectives := [] } := by
  constructor
  · unfold gptResult finalState
    rw [processAll_all_none h]
    rfl
  · rfl

/-- Witness for claim C2 at a concrete input. -/
theorem claim_C2_witness :
    gptResult [none, none] ["Ana"]
      = Except.error "No se generaron main_points en ninguno de los fragmentos."
    ∧ generate_minutes none ["Ana"]
      = { objective := "",
          metadata := { title := "Acta de Reunión", participants := ["Ana"] },
          main_points := [], details := [], tasks_and_objectives := [] } :=
  claim_C2 [none, none] ["Ana"] (by simp)

/-- Claim C10: when the transcript file does not exist, gpt writes a default
document with a placeholder error title and empty main points and returns
normally without raising, so this path produces an empty document even
though zero topics survive. -/
theorem claim_C10 (ps : List String) (outcomes : List (Option PartialRes)) :
    gpt_run none ps outcomes = Except.ok errorDoc
    ∧ errorDoc.main_points = []
    ∧ errorDoc.metadata.title = "Error: Transcript not found"
    ∧ errorDoc.detailed_summary = [] :=
  ⟨rfl, rfl, rfl, rfl⟩

end MergeTheorems

section C5Proofs

lemma foldl_mergeStep_spec : ∀ (L A S : List String),
    ∃ extra : List String,
    (L.foldl mergeStep (A, S)).1 = A ++ extra
    ∧ (∀ l ∈ extra, pyStrip l ≠ "" ∧ l ∈ L ∧ normLine l ∉ S)
    ∧ (extra.map normLine).Nodup := by
  intro L
  induction L with
  | nil => intro A S; exact ⟨[], by simp, by simp, by simp⟩
  | cons ln rest ih =>
    intro A S
    rw [List.foldl_cons]
    by_cases hb : pyStrip ln = ""
    · have hstep : mergeStep (A, S) ln = (A, S) := by simp [mergeStep, hb]
      rw [hstep]
      obtain ⟨extra, he1, he2, he3⟩ := ih A S
      exact ⟨extra, he1,
        fun l hl => ⟨(he2 l hl).1, by simp [(he2 l hl).2.1], (he2 l hl).2.2⟩, he3⟩
    · by_cases hn : normLine ln ∈ S
      · have hstep : mergeStep (A, S) ln = (A, S) := by simp [mergeStep, hb, hn]
        rw [hstep]
        obtain ⟨extra, he1, he2, he3⟩ := ih A S
        exact ⟨extra, he1,
          fun l hl => ⟨(he2 l hl).1, by simp [(he2 l hl).2.1], (he2 l hl).2.2⟩, he3⟩
      · have hstep : mergeStep (A, S) ln = (A ++ [ln], normLine ln :: S) := by
          simp [mergeStep, hb, hn]
        rw [hstep]
        obtain ⟨extra, he1, he2, he3⟩ := ih (A ++ [ln]) (normLine ln :: S)
        refine ⟨ln :: extra, ?_, ?_, ?_⟩
        · rw [he1, List.append_assoc]
          rfl
        · intro l hl
          rcases List.mem_cons.mp hl with rfl | hl2
          · exact ⟨hb, by simp, hn⟩
          · refine ⟨(he2 l hl2).1, by simp [(he2 l hl2).2.1], ?_⟩
            intro hc
            exact (he2 l hl2).2.2 (List.mem_cons.mpr (Or.inr hc))
        · rw [List.map_cons, List.nodup_cons]
          refine ⟨?_, he3⟩
          intro hc
          obtain ⟨l, hl, heq⟩ := List.mem_map.mp hc
          exact (he2 l hl).2.2 (List.mem_cons.mpr (Or.inl heq))

lemma mergedLines_spec (base new : String) :
    ∃ extra, mergedLines base new = nonBlankLines base ++ extra
    ∧ (∀ l ∈ extra, pyStrip l ≠ "" ∧ l ∈ pySplitlines new
        ∧ normLine l ∉ (nonBlankLines base).map normLine)
    ∧ (extra.map normLine).Nodup :=
  foldl_mergeStep_spec (pySplitlines new) (nonBlankLines base)
    ((nonBlankLines base).map normLine)

/-- Claim C5: in the global reconciliation pass, two topics with the same
normalized-title signature are merged into the first-seen topic; the kept
time is replaced by the time of the duplicate exactly when the latter is
nonempty and either the canonical lacks a time or the duplicate parses
numerically earlier; the detail of the duplicate is merged into the
canonical entry by _merge_detail_items, without introducing duplicate
normalized bullet lines; and the detail entry of the duplicate is removed. -/
theorem claim_C5 (mp1 mp2 : MainPoint) (d1 d2 : DetailedSummaryItem)
    (hsig : _normalize_text mp2.title = _normalize_text mp1.title)
    (hne : _normalize_text mp1.title ≠ "")
    (hid : mp1.id ≠ mp2.id) :
    (_dedupe_main_points_and_details
        ⟨[mp1, mp2], [(mp1.id, d1), (mp2.id, d2)], [], [], none⟩).global_main_points
      = [{ mp1 with time :=
            if pyTruthy mp2.time ∧ (¬ pyTruthy mp1.time
                ∨ _time_to_seconds mp2.time < _time_to_seconds mp1.time)
            then mp2.time else mp1.time }]
    ∧ dictKeys (_dedupe_main_points_and_details
        ⟨[mp1, mp2], [(mp1.id, d1), (mp2.id, d2)], [], [], none⟩).global_detailed_summary
      = [mp1.id]
    ∧ dictGet (_dedupe_main_points_and_details
        ⟨[mp1, mp2], [(mp1.id, d1), (mp2.id, d2)], [], [], none⟩).global_detailed_summary
        mp1.id
      = _merge_detail_items (some d1) (some d2)
    ∧ (∃ m, _merge_detail_items (some d1) (some d2) = some m
        ∧ m.content = _merge_content d1.content d2.content)
    ∧ (∃ extra, mergedLines d1.content d2.content = nonBlankLines d1.content ++ extra
        ∧ (∀ l ∈ extra, normLine l ∉ (nonBlankLines d1.content).map normLine
            ∧ l ∈ pySplitlines d2.content)
        ∧ (extra.map normLine).Nodup) := by
  have hm : ∃ m, _merge_detail_items (some d1) (some d2) = some m
      ∧ m.content = _merge_content d1.content d2.content := ⟨_, rfl, rfl⟩
  obtain ⟨m, hmEq, hmContent⟩ := hm
  have hss : sigOf mp1 = sigOf mp2 := by
    simp [sigOf, hsig, hne]
  have hget1 : dictGet [(mp1.id, d1), (mp2.id, d2)] mp1.id = some d1 := by
    simp [dictGet]
  have hget2 : dictGet [(mp1.id, d1), (mp2.id, d2)] mp2.id = some d2 := by
    simp [dictGet, hid]
  have hstep1 : dedupeStep ⟨[], [], [(mp1.id, d1), (mp2.id, d2)]⟩ mp1
      = ⟨[(sigOf mp1, 0)], [mp1], [(mp1.id, d1), (mp2.id, d2)]⟩ := by
    simp [dedupeStep, dictGet, dictInsert]
  have hstep2 : dedupeStep
      ⟨[(sigOf mp1, 0)], [mp1], [(mp1.id, d1), (mp2.id, d2)]⟩ mp2
      = ⟨[(sigOf mp1, 0)],
         [{ mp1 with time :=
             if pyTruthy mp2.time ∧ (¬ pyTruthy mp1.time
                 ∨ _time_to_seconds mp2.time < _time_to_seconds mp1.time)
             then mp2.time else mp1.time }],
         [(mp1.id, m)]⟩ := by
    simp [dedupeStep, dictGet, hss, hget1, hget2, hid, Ne.symm hid, hmEq,
      dictInsert, dictPop]
  have hfold : [mp1, mp2].foldl dedupeStep ⟨[], [], [(mp1.id, d1), (mp2.id, d2)]⟩
      = ⟨[(sigOf mp1, 0)],
         [{ mp1 with time :=
             if pyTruthy mp2.time ∧ (¬ pyTruthy mp1.time
                 ∨ _time_to_seconds mp2.time < _time_to_seconds mp1.time)
             then mp2.time else mp1.time }],
         [(mp1.id, m)]⟩ := by
    show dedupeStep (dedupeStep ⟨[], [], [(mp1.id, d1), (mp2.id, d2)]⟩ mp1) mp2 = _
    rw [hstep1, hstep2]
  refine ⟨?_, ?_, ?_, ⟨m, hmEq, hmContent⟩, ?_⟩
  · unfold _dedupe_main_points_and_details
    rw [hfold]
  · unfold _dedupe_main_points_and_details
    rw [hfold]
    simp [dictKeys]
  · unfold _dedupe_main_points_and_details
    rw [hfold, hmEq]
    simp [dictGet]
  · obtain ⟨extra, h1, h2, h3⟩ := mergedLines_spec d1.content d2.content
    exact ⟨extra, h1, fun l hl => ⟨(h2 l hl).2.2, (h2 l hl).2.1⟩, h3⟩

/-- Witness for claim C5: case and spacing variants of the same title at
times 05:02 and 05:00, in that order of first appearance reversed, merge to
one topic with the earlier time 05:00 and one merged detail entry. -/
theorem claim_C5_witness :
    _normalize_text "presupuesto " = _normalize_text "Presupuesto"
    ∧ (_dedupe_main_points_and_details
        ⟨[⟨"Presupuesto", "p1", some "05:00"⟩, ⟨"presupuesto ", "p2", some "05:02"⟩],
         [("p1", ⟨"Presupuesto", "- Revisar gastos", [], none⟩),
          ("p2", ⟨"presupuesto", "- Revisar gastos\n- Aprobar partida", [], some "05:02"⟩)],
         [], [], none⟩).global_main_points
      = [⟨"Presupuesto", "p1", some "05:00"⟩]
    ∧ dictKeys (_dedupe_main_points_and_details
        ⟨[⟨"Presupuesto", "p1", some "05:00"⟩, ⟨"presupuesto ", "p2", some "05:02"⟩],
         [("p1", ⟨"Presupuesto", "- Revisar gastos", [], none⟩),
          ("p2", ⟨"presupuesto", "- Revisar gastos\n- Aprobar partida", [], some "05:02"⟩)],
         [], [], none⟩).global_detailed_summary
      = ["p1"] := by
  have h := claim_C5 ⟨"Presupuesto", "p1", some "05:00"⟩
    ⟨"presupuesto ", "p2", some "05:02"⟩
    ⟨"Presupuesto", "- Revisar gastos", [], none⟩
    ⟨"presupuesto", "- Revisar gastos\n- Aprobar partida", [], some "05:02"⟩
    (by decide) (by decide) (by decide)
  refine ⟨by decide, ?_, h.2.1⟩
  rw [h.1]
  decide

end C5Proofs

end GAI
